import Mathlib

/-!
Verification of the selection / cursor-movement core (movement.rs).

The Rust source is shallowly embedded: `SelRegion`, `Selection`, the
merge-on-insert algorithm `add_region` (with its binary `search` and its
forward merge loop), the range query `regions_in_range`, delta rebasing
`apply_delta`, and the movement command computation `update_region`.
Machine integers (usize) are modelled as `Nat`; the Rust code never
relies on wrap-around (subtractions are guarded), so `Nat` subtraction
coincides with the source semantics on every reachable path.

The external collaborators (the text `Buffer`, the editing `Mode`, the
edit-delta `Transformer`, and `InsertDrift`) live outside the translated
file; they are modelled from the spec as abstract capability records /
small closed enums, as noted on each definition.
-/

namespace Lapce

/-- Rust enum ColPosition (movement.rs): remembered horizontal column
affinity. -/
inductive ColPosition where
  | FirstNonBlank
  | Start
  | End
  | Col (n : Nat)
  deriving DecidableEq

/-- Rust struct SelRegion (movement.rs): a directional offset range plus
optional column affinity.  The Rust field named end is called `stop`
here (end is a Lean keyword). -/
structure SelRegion where
  start : Nat
  stop : Nat
  horiz : Option ColPosition
  deriving DecidableEq

instance : Inhabited SelRegion := ⟨⟨0, 0, none⟩⟩

namespace SelRegion

/-- SelRegion::new. -/
def new (start stop : Nat) (horiz : Option ColPosition) : SelRegion :=
  ⟨start, stop, horiz⟩

/-- SelRegion::min: min(self.start, self.end). -/
def min (r : SelRegion) : Nat := Nat.min r.start r.stop

/-- SelRegion::max: max(self.start, self.end). -/
def max (r : SelRegion) : Nat := Nat.max r.start r.stop

/-- SelRegion::is_caret: self.start == self.end. -/
def is_caret (r : SelRegion) : Bool := r.start == r.stop

/-- SelRegion::should_merge. -/
def should_merge (a b : SelRegion) : Bool :=
  decide (b.min < a.max) ||
    ((a.is_caret || b.is_caret) && decide (b.min = a.max))

/-- SelRegion::merge_with. -/
def merge_with (a b : SelRegion) : SelRegion :=
  let is_forward := decide (a.stop > a.start) || decide (b.stop > b.start)
  let new_min := Nat.min a.min b.min
  let new_max := Nat.max a.max b.max
  if is_forward then SelRegion.new new_min new_max none
  else SelRegion.new new_max new_min none

end SelRegion

/-- Rust fn remove_n_at (movement.rs): removes the n elements starting at
index (Vec::remove for n = 1, Vec::splice for n > 1, no-op for n = 0). -/
def remove_n_at {α : Type} (v : List α) (index n : Nat) : List α :=
  if n = 1 then v.eraseIdx index
  else if n > 1 then v.take index ++ v.drop (index + n)
  else v

/-- Rust struct Selection (movement.rs): an ordered collection of regions. -/
structure Selection where
  regions : List SelRegion
  deriving DecidableEq

namespace Selection

/-- Selection::new. -/
def new : Selection := ⟨[]⟩

/-- Selection::new_simple. -/
def new_simple : Selection := ⟨[⟨0, 0, none⟩]⟩

/-- Selection::caret. -/
def caret (offset : Nat) : Selection := ⟨[⟨offset, offset, none⟩]⟩

/-- Selection::region. -/
def region (start stop : Nat) : Selection := ⟨[⟨start, stop, none⟩]⟩

/-- Loop body of slice::binary_search_by over the regions' max keys, as
used by Selection::search.  The explicit fuel argument only bounds the
iteration count; the Rust loop terminates because right - left shrinks
every round, and search below passes fuel = length + 1 which the proofs
show is never exhausted. -/
def bsearchAux (rs : List SelRegion) (offset : Nat) :
    Nat → Nat → Nat → Nat
  | 0, left, _ => left
  | fuel + 1, left, right =>
    if left < right then
      let mid := left + (right - left) / 2
      let key := (rs.getD mid default).max
      if key < offset then bsearchAux rs offset fuel (mid + 1) right
      else if offset < key then bsearchAux rs offset fuel left mid
      else mid
    else left

/-- Selection::search: index of the first region whose max is >= offset,
or the region count when every max is below offset (empty / past-the-end
early return, then binary search; Ok and Err both yield the index). -/
def search (s : Selection) (offset : Nat) : Nat :=
  match s.regions.getLast? with
  | none => s.regions.length
  | some lastr =>
    if offset > lastr.max then s.regions.length
    else bsearchAux s.regions offset (s.regions.length + 1) 0 s.regions.length

/-- The while loop of Selection::add_region: starting from the candidate
region, keep merging successive regions of the suffix while they
should_merge; returns the merged region and how many were consumed. -/
def mergeLoopAux (region : SelRegion) : List SelRegion → SelRegion × Nat
  | [] => (region, 0)
  | x :: rest =>
    if region.should_merge x then
      let p := mergeLoopAux (region.merge_with x) rest
      (p.1, p.2 + 1)
    else (region, 0)

/-- Selection::add_region: the merge-on-insert algorithm.  Vec::insert is
written as take/cons/drop; the replace path mirrors the source's
regions[ix] = region followed by remove_n_at. -/
def add_region (s : Selection) (r : SelRegion) : Selection :=
  let rs := s.regions
  let ix := s.search r.min
  if ix = rs.length then ⟨rs ++ [r]⟩
  else
    let r0 := rs.getD ix default
    let t :=
      if r0.min ≤ r.min then
        if r0.should_merge r then (r0.merge_with r, ix, ix + 1)
        else (r, ix + 1, ix + 1)
      else (r, ix, ix)
    let region1 := t.1
    let ix1 := t.2.1
    let endIx1 := t.2.2
    let p := mergeLoopAux region1 (rs.drop endIx1)
    let region2 := p.1
    let endIx2 := endIx1 + p.2
    if ix1 = endIx2 then ⟨rs.take ix1 ++ region2 :: rs.drop ix1⟩
    else ⟨remove_n_at (rs.set ix1 region2) (ix1 + 1) (endIx2 - ix1 - 1)⟩

/-- Selection::collapse: a new Selection holding only the first region. -/
def collapse (s : Selection) : Selection :=
  Selection.new.add_region (s.regions.getD 0 default)

/-- Selection::get_cursor_offset: the end of the first region (total
embedding; index 0 read through getD). -/
def get_cursor_offset (s : Selection) : Nat :=
  (s.regions.getD 0 default).stop

/-- Selection::min: the min of the last stored region (total embedding). -/
def min (s : Selection) : Nat :=
  (s.regions.getD (s.regions.length - 1) default).min

/-- Selection::to_caret: first region collapsed to a caret at its end,
keeping its affinity. -/
def to_caret (s : Selection) : Selection :=
  let r := s.regions.getD 0 default
  ⟨[⟨r.stop, r.stop, r.horiz⟩]⟩

/-- Selection::regions_in_range: the contiguous sub-slice from
search(start) to search(end), extended by one when the region at
search(end) exists and its min is <= end. -/
def regions_in_range (s : Selection) (start stop : Nat) : List SelRegion :=
  let first := s.search start
  let last0 := s.search stop
  let last :=
    if last0 < s.regions.length ∧ (s.regions.getD last0 default).min ≤ stop
    then last0 + 1 else last0
  (s.regions.drop first).take (last - first)

/-- Fallible embedding of Selection::get_cursor_offset: the regions[0]
index access returns none on an empty Selection. -/
def get_cursor_offsetF (s : Selection) : Option Nat :=
  (s.regions.get? 0).map (fun r => r.stop)

/-- Fallible embedding of Selection::min: the regions[len - 1] index
access returns none on an empty Selection. -/
def minF (s : Selection) : Option Nat :=
  (s.regions.get? (s.regions.length - 1)).map SelRegion.min

/-- Fallible embedding of Selection::collapse (reads regions[0]). -/
def collapseF (s : Selection) : Option Selection :=
  (s.regions.get? 0).map (fun r => Selection.new.add_region r)

/-- Fallible embedding of Selection::to_caret (reads regions[0]). -/
def to_caretF (s : Selection) : Option Selection :=
  (s.regions.get? 0).map (fun r => ⟨[⟨r.stop, r.stop, r.horiz⟩]⟩)

end Selection

/-- Modelled from the spec: InsertDrift, the external (xi_core_lib) drift
policy for region boundaries when rebasing through an edit; the spec
names exactly the Inside and Outside policies. -/
inductive InsertDrift where
  | Inside
  | Outside
  deriving DecidableEq

/-- Selection::apply_delta.  The external xi_rope Transformer is modelled
from the spec as a pure single-offset rebasing primitive
transform : offset -> after-bias -> offset, called once per endpoint. -/
def Selection.apply_delta (s : Selection) (transform : Nat → Bool → Nat)
    (after : Bool) (drift : InsertDrift) : Selection :=
  s.regions.foldl
    (fun result region =>
      let is_caret := region.start == region.stop
      let is_region_forward := decide (region.start < region.stop)
      let ba :=
        match drift, is_caret with
        | InsertDrift.Inside, false => (!is_region_forward, is_region_forward)
        | InsertDrift.Outside, false => (is_region_forward, !is_region_forward)
        | _, _ => (after, after)
      result.add_region
        (SelRegion.new (transform region.start ba.1)
          (transform region.stop ba.2) none))
    Selection.new

/-- Modelled from the spec: the external editing Mode, a small closed set
with at least an Insert state and a Visual (range-preserving) state. -/
inductive Mode where
  | Normal
  | Insert
  | Visual
  deriving DecidableEq

/-- Modelled from the spec: the external Buffer capability, consumed as
an abstract record of the query methods the movement code calls
(line_of_offset, offset_of_line, line_end_offset, offset_to_line_col,
col_on_line, word_forward, word_backword, last_line, len, fill_horiz). -/
structure Buffer where
  line_of_offset : Nat → Nat
  offset_of_line : Nat → Nat
  line_end_offset : Mode → Nat → Nat
  offset_to_line_col : Nat → Nat × Nat
  col_on_line : Mode → Nat → Option ColPosition → Nat
  word_forward : Nat → Nat
  word_backword : Nat → Nat
  last_line : Nat
  len : Nat
  fill_horiz : Selection → Selection

/-- Rust enum LinePosition (movement.rs). -/
inductive LinePosition where
  | First
  | Last
  | Line (n : Nat)

/-- Rust enum Movement (movement.rs). -/
inductive Movement where
  | Left (count : Nat)
  | Right (count : Nat)
  | Up (count : Nat)
  | Down (count : Nat)
  | StartOfLine
  | EndOfLine
  | Line (position : LinePosition)
  | WordForward (count : Nat)
  | WordBackward (count : Nat)

/-- n-fold application, for the for-loops of the word movements. -/
def iterN (f : Nat → Nat) : Nat → Nat → Nat
  | 0, x => x
  | n + 1, x => iterN f n (f x)

namespace Movement

/-- Movement::update_region: computes the new end offset and affinity per
command, then the new start from the mode (Visual keeps the anchor,
every other mode collapses to the new end). -/
def update_region (m : Movement) (region : SelRegion) (buffer : Buffer)
    (mode : Mode) : SelRegion :=
  let p : Nat × Option ColPosition :=
    match m with
    | Movement.Left count =>
      let e := region.stop
      let line := buffer.line_of_offset e
      let line_start_offset := buffer.offset_of_line line
      let new_end :=
        if e < count then 0
        else if e - count > line_start_offset then e - count
        else line_start_offset
      (new_end, some (ColPosition.Col (buffer.offset_to_line_col new_end).2))
    | Movement.Right count =>
      let e := region.stop
      let line_end := buffer.line_end_offset mode e
      let ne1 := e + count
      let ne2 := if ne1 > buffer.len then buffer.len else ne1
      let new_end := if ne2 > line_end then line_end else ne2
      (new_end, some (ColPosition.Col (buffer.offset_to_line_col new_end).2))
    | Movement.Up count =>
      let line0 := buffer.line_of_offset region.stop
      let line := if line0 > count then line0 - count else 0
      let mc0 :=
        buffer.offset_of_line (line + 1) - buffer.offset_of_line line - 1
      let max_col :=
        if mc0 > 0 ∧ mode ≠ Mode.Insert then mc0 - 1 else mc0
      let col :=
        match region.horiz with
        | some ColPosition.End => max_col
        | some (ColPosition.Col n) => if max_col > n then n else max_col
        | _ => 0
      (buffer.offset_of_line line + col, region.horiz)
    | Movement.Down count =>
      let last_line := buffer.last_line
      let line0 := buffer.line_of_offset region.stop + count
      let line := if line0 > last_line then last_line else line0
      let col := buffer.col_on_line mode line region.horiz
      (buffer.offset_of_line line + col, region.horiz)
    | Movement.StartOfLine =>
      let line := buffer.line_of_offset region.stop
      (buffer.offset_of_line line, some ColPosition.Start)
    | Movement.EndOfLine =>
      (buffer.line_end_offset mode region.stop, some ColPosition.End)
    | Movement.Line position =>
      let line :=
        match position with
        | LinePosition.Line n =>
          if n > buffer.last_line then buffer.last_line else n
        | LinePosition.First => 0
        | LinePosition.Last => buffer.last_line
      let col := buffer.col_on_line mode line region.horiz
      (buffer.offset_of_line line + col, region.horiz)
    | Movement.WordForward count =>
      let new_end := iterN buffer.word_forward count region.stop
      (new_end, some (ColPosition.Col (buffer.offset_to_line_col new_end).2))
    | Movement.WordBackward count =>
      let ne0 := iterN buffer.word_backword count region.stop
      let line_end_offset := buffer.line_end_offset mode ne0
      let new_end := if ne0 > line_end_offset then line_end_offset else ne0
      (new_end, some (ColPosition.Col (buffer.offset_to_line_col new_end).2))
  let start :=
    match mode with
    | Mode.Visual => region.start
    | _ => p.1
  ⟨start, p.1, p.2⟩

/-- Movement::update_selection: update every region, re-insert through
add_region, then let the Buffer fill missing affinities. -/
def update_selection (m : Movement) (selection : Selection) (buffer : Buffer)
    (mode : Mode) : Selection :=
  buffer.fill_horiz
    (selection.regions.foldl
      (fun acc region => acc.add_region (m.update_region region buffer mode))
      Selection.new)

end Movement

/-! ### Auxiliary definitions for the verification -/

/-- Element at index i, defaulting (indices are always in range where this
is used with intent). -/
def nth (l : List SelRegion) (i : Nat) : SelRegion := l.getD i default

/-- The maintained structural invariant of a Selection's region list:
consecutive regions have non-overlapping extents (next min at or past the
previous max) and strictly increasing max keys.  This is the invariant
add_region preserves; it implies the spec's sorted/non-overlap wording. -/
def SInv (rs : List SelRegion) : Prop :=
  ∀ i < rs.length - 1,
    (nth rs i).max ≤ (nth rs (i + 1)).min ∧
      (nth rs i).max < (nth rs (i + 1)).max

instance (rs : List SelRegion) : Decidable (SInv rs) :=
  decidable_of_iff
    (∀ i < rs.length - 1,
      (nth rs i).max ≤ (nth rs (i + 1)).min ∧
        (nth rs i).max < (nth rs (i + 1)).max)
    Iff.rfl

/-- The regions of rs whose extent truly overlaps r (claim wording:
new.min < existing.max and existing.min < new.max). -/
def overlapsOf (rs : List SelRegion) (r : SelRegion) : List SelRegion :=
  rs.filter (fun q => decide (r.min < q.max) && decide (q.min < r.max))

/-- Least value among z and the min extents of the listed regions. -/
def foldMin (l : List SelRegion) (z : Nat) : Nat :=
  l.foldl (fun acc q => Nat.min acc q.min) z

/-- Greatest value among z and the max extents of the listed regions. -/
def foldMax (l : List SelRegion) (z : Nat) : Nat :=
  l.foldl (fun acc q => Nat.max acc q.max) z

/-- Least min over r and the regions truly overlapping r. -/
def unionMin (rs : List SelRegion) (r : SelRegion) : Nat :=
  foldMin (overlapsOf rs r) r.min

/-- Greatest max over r and the regions truly overlapping r. -/
def unionMax (rs : List SelRegion) (r : SelRegion) : Nat :=
  foldMax (overlapsOf rs r) r.max

/-- Fold of merge_with over a list of regions. -/
def mergeFold (region : SelRegion) (l : List SelRegion) : SelRegion :=
  l.foldl SelRegion.merge_with region

/-- The first phase of add_region in its non-append path: the candidate
region after the possible merge with the region at the search index, the
replacement index, and the start index of the merge loop. -/
def addT (s : Selection) (r : SelRegion) : SelRegion × Nat × Nat :=
  if (s.regions.getD (s.search r.min) default).min ≤ r.min then
    if (s.regions.getD (s.search r.min) default).should_merge r then
      ((s.regions.getD (s.search r.min) default).merge_with r,
        s.search r.min, s.search r.min + 1)
    else (r, s.search r.min + 1, s.search r.min + 1)
  else (r, s.search r.min, s.search r.min)

/-- The (window start, window end, merged region) triple computed by
add_region: add_region replaces the window [start, end) of the region
list by the single merged region.  In the append path the window is the
empty window at the end of the list. -/
def addParts (s : Selection) (r : SelRegion) : Nat × Nat × SelRegion :=
  if s.search r.min = s.regions.length then
    (s.regions.length, s.regions.length, r)
  else
    ((addT s r).2.1,
      (addT s r).2.2 +
        (Selection.mergeLoopAux (addT s r).1
          (s.regions.drop (addT s r).2.2)).2,
      (Selection.mergeLoopAux (addT s r).1
        (s.regions.drop (addT s r).2.2)).1)

/-- The extent content of a selection: the (min, max) pair of every
region in order. -/
def extentsOf (s : Selection) : List (Nat × Nat) :=
  s.regions.map (fun q => (q.min, q.max))

/-- Spec-side restatement of apply_delta's per-endpoint bias policy, in
the claim's words: a caret uses the after flag for both endpoints; a true
range uses (!forward, forward) under Inside drift and (forward, !forward)
under Outside drift, where forward means start < end. -/
def biasSpec (drift : InsertDrift) (after : Bool) (r : SelRegion) :
    Bool × Bool :=
  if r.is_caret then (after, after)
  else
    match drift with
    | InsertDrift.Inside =>
      (!decide (r.start < r.stop), decide (r.start < r.stop))
    | InsertDrift.Outside =>
      (decide (r.start < r.stop), !decide (r.start < r.stop))

/-- A concrete two-line buffer ("hello\nworld": line 0 is offsets 0-5,
line 1 starts at offset 6), used as a counterexample input. -/
def bTwoLines : Buffer where
  line_of_offset := fun o => if o < 6 then 0 else 1
  offset_of_line := fun l => if l = 0 then 0 else 6
  line_end_offset := fun _ o => o
  offset_to_line_col := fun o => if o < 6 then (0, o) else (1, o - 6)
  col_on_line := fun _ _ _ => 0
  word_forward := id
  word_backword := id
  last_line := 1
  len := 11
  fill_horiz := id

/-! ### Basic facts about regions and indexing -/

theorem SelRegion.extent_def (r : SelRegion) :
    (r.min = r.start ∧ r.max = r.stop) ∨
      (r.min = r.stop ∧ r.max = r.start) := by
  unfold SelRegion.min SelRegion.max
  rcases Nat.le_total r.start r.stop with h | h
  · exact Or.inl ⟨Nat.min_eq_left h, Nat.max_eq_right h⟩
  · exact Or.inr ⟨Nat.min_eq_right h, Nat.max_eq_left h⟩

theorem SelRegion.min_le_max (r : SelRegion) : r.min ≤ r.max := by
  unfold SelRegion.min SelRegion.max
  exact le_trans (Nat.min_le_left _ _) (Nat.le_max_left _ _)

theorem SelRegion.merge_min (a b : SelRegion) :
    (a.merge_with b).min = Nat.min a.min b.min := by
  have hle : Nat.min a.min b.min ≤ Nat.max a.max b.max :=
    le_trans (Nat.min_le_left _ _)
      (le_trans a.min_le_max (Nat.le_max_left _ _))
  simp only [SelRegion.merge_with]
  split
  · exact Nat.min_eq_left hle
  · exact Nat.min_eq_right hle

theorem SelRegion.merge_max (a b : SelRegion) :
    (a.merge_with b).max = Nat.max a.max b.max := by
  have hle : Nat.min a.min b.min ≤ Nat.max a.max b.max :=
    le_trans (Nat.min_le_left _ _)
      (le_trans a.min_le_max (Nat.le_max_left _ _))
  simp only [SelRegion.merge_with]
  split
  · exact Nat.max_eq_right hle
  · exact Nat.max_eq_left hle

theorem SelRegion.is_caret_iff (r : SelRegion) :
    r.is_caret = true ↔ r.min = r.max := by
  unfold SelRegion.is_caret
  simp only [beq_iff_eq]
  constructor
  · intro h
    unfold SelRegion.min SelRegion.max
    rw [h]
    simp [Nat.min_def, Nat.max_def]
  · intro h
    rcases r.extent_def with ⟨h1, h2⟩ | ⟨h1, h2⟩ <;> omega

theorem SelRegion.should_merge_iff (a b : SelRegion) :
    a.should_merge b = true ↔
      b.min < a.max ∨
        ((a.is_caret = true ∨ b.is_caret = true) ∧ b.min = a.max) := by
  unfold SelRegion.should_merge
  simp [Bool.or_eq_true, Bool.and_eq_true]

theorem SelRegion.should_merge_congr (a a' b b' : SelRegion)
    (h1 : a.min = a'.min) (h2 : a.max = a'.max)
    (h3 : b.min = b'.min) (h4 : b.max = b'.max) :
    a.should_merge b = a'.should_merge b' := by
  have ca : a.is_caret = a'.is_caret := by
    rcases hc : a'.is_caret with _ | _
    · rcases hd : a.is_caret with _ | _
      · rfl
      · exact absurd ((a'.is_caret_iff).2 (h1 ▸ h2 ▸ (a.is_caret_iff).1 hd))
          (by simp [hc])
    · exact (a.is_caret_iff).2 (h1 ▸ h2 ▸ (a'.is_caret_iff).1 hc)
  have cb : b.is_caret = b'.is_caret := by
    rcases hc : b'.is_caret with _ | _
    · rcases hd : b.is_caret with _ | _
      · rfl
      · exact absurd ((b'.is_caret_iff).2 (h3 ▸ h4 ▸ (b.is_caret_iff).1 hd))
          (by simp [hc])
    · exact (b.is_caret_iff).2 (h3 ▸ h4 ▸ (b'.is_caret_iff).1 hc)
  unfold SelRegion.should_merge
  rw [h2, h3, ca, cb]

theorem nth_cons_zero (x : SelRegion) (l : List SelRegion) :
    nth (x :: l) 0 = x := rfl

theorem nth_cons_succ (x : SelRegion) (l : List SelRegion) (i : Nat) :
    nth (x :: l) (i + 1) = nth l i := rfl

theorem nth_append_left {l₁ l₂ : List SelRegion} {i : Nat}
    (h : i < l₁.length) : nth (l₁ ++ l₂) i = nth l₁ i := by
  unfold nth
  simp [List.getD_eq_getElem?_getD, List.getElem?_append_left h]

theorem nth_append_right {l₁ l₂ : List SelRegion} {i : Nat}
    (h : l₁.length ≤ i) : nth (l₁ ++ l₂) i = nth l₂ (i - l₁.length) := by
  unfold nth
  simp [List.getD_eq_getElem?_getD, List.getElem?_append_right h]

theorem nth_take {l : List SelRegion} {i n : Nat} (h : i < n) :
    nth (l.take n) i = nth l i := by
  unfold nth
  simp [List.getD_eq_getElem?_getD, List.getElem?_take_of_lt h]

theorem nth_drop (l : List SelRegion) (n i : Nat) :
    nth (l.drop n) i = nth l (n + i) := by
  unfold nth
  simp [List.getD_eq_getElem?_getD, List.getElem?_drop]

theorem mem_iff_nth {x : SelRegion} {l : List SelRegion} :
    x ∈ l ↔ ∃ i, i < l.length ∧ nth l i = x := by
  constructor
  · intro hx
    rcases List.mem_iff_getElem.1 hx with ⟨i, hi, he⟩
    exact ⟨i, hi, by simp [nth, List.getD_eq_getElem?_getD,
      List.getElem?_eq_getElem hi, he]⟩
  · rintro ⟨i, hi, he⟩
    subst he
    simp only [nth, List.getD_eq_getElem?_getD, List.getElem?_eq_getElem hi,
      Option.getD_some]
    exact List.getElem_mem hi

/-! ### Fold and merge-fold lemmas -/

theorem foldMin_le_init : ∀ (l : List SelRegion) (z : Nat), foldMin l z ≤ z
  | [], _ => Nat.le_refl _
  | x :: l, z =>
    le_trans (foldMin_le_init l (Nat.min z x.min)) (Nat.min_le_left _ _)

theorem foldMin_le_mem :
    ∀ (l : List SelRegion) (z : Nat) {q : SelRegion}, q ∈ l →
      foldMin l z ≤ q.min := by
  intro l
  induction l with
  | nil => intro z q h; cases h
  | cons x l ih =>
    intro z q h
    rcases List.mem_cons.1 h with h | h
    · subst h
      exact le_trans (foldMin_le_init l _) (Nat.min_le_right _ _)
    · exact ih _ h

theorem le_foldMin {c : Nat} :
    ∀ (l : List SelRegion) (z : Nat), c ≤ z → (∀ q ∈ l, c ≤ q.min) →
      c ≤ foldMin l z := by
  intro l
  induction l with
  | nil => intro z hz _; exact hz
  | cons x l ih =>
    intro z hz hl
    exact ih _ (le_min hz (hl x (List.mem_cons_self _ _)))
      (fun q hq => hl q (List.mem_cons_of_mem _ hq))

theorem init_le_foldMax : ∀ (l : List SelRegion) (z : Nat), z ≤ foldMax l z
  | [], _ => Nat.le_refl _
  | x :: l, z =>
    le_trans (Nat.le_max_left _ _) (init_le_foldMax l (Nat.max z x.max))

theorem mem_le_foldMax :
    ∀ (l : List SelRegion) (z : Nat) {q : SelRegion}, q ∈ l →
      q.max ≤ foldMax l z := by
  intro l
  induction l with
  | nil => intro z q h; cases h
  | cons x l ih =>
    intro z q h
    rcases List.mem_cons.1 h with h | h
    · subst h
      exact le_trans (Nat.le_max_right _ _) (init_le_foldMax l _)
    · exact ih _ h

theorem foldMax_le {c : Nat} :
    ∀ (l : List SelRegion) (z : Nat), z ≤ c → (∀ q ∈ l, q.max ≤ c) →
      foldMax l z ≤ c := by
  intro l
  induction l with
  | nil => intro z hz _; exact hz
  | cons x l ih =>
    intro z hz hl
    exact ih _ (max_le hz (hl x (List.mem_cons_self _ _)))
      (fun q hq => hl q (List.mem_cons_of_mem _ hq))

theorem mergeFold_min :
    ∀ (l : List SelRegion) (region : SelRegion),
      (mergeFold region l).min = foldMin l region.min := by
  intro l
  induction l with
  | nil => intro region; rfl
  | cons x l ih =>
    intro region
    show (mergeFold (region.merge_with x) l).min =
      foldMin l (Nat.min region.min x.min)
    rw [ih, SelRegion.merge_min]

theorem mergeFold_max :
    ∀ (l : List SelRegion) (region : SelRegion),
      (mergeFold region l).max = foldMax l region.max := by
  intro l
  induction l with
  | nil => intro region; rfl
  | cons x l ih =>
    intro region
    show (mergeFold (region.merge_with x) l).max =
      foldMax l (Nat.max region.max x.max)
    rw [ih, SelRegion.merge_max]

/-! ### Invariant index facts -/

theorem sinv_adj {rs : List SelRegion} (h : SInv rs) {i : Nat}
    (hi : i + 1 < rs.length) :
    (nth rs i).max ≤ (nth rs (i + 1)).min ∧
      (nth rs i).max < (nth rs (i + 1)).max :=
  h i (by omega)

theorem sinv_pair {rs : List SelRegion} (h : SInv rs) :
    ∀ {i j : Nat}, i < j → j < rs.length →
      (nth rs i).max ≤ (nth rs j).min ∧ (nth rs i).max < (nth rs j).max := by
  intro i j
  induction j with
  | zero => omega
  | succ j ih =>
    intro hij hj
    rcases Nat.lt_or_ge i j with h' | h'
    · have p1 := ih h' (by omega)
      have p2 := sinv_adj h hj
      exact ⟨le_trans (le_of_lt p1.2) p2.1, lt_trans p1.2 p2.2⟩
    · have : i = j := by omega
      subst this
      exact sinv_adj h hj

theorem sinv_max_mono {rs : List SelRegion} (h : SInv rs) {i j : Nat}
    (hij : i ≤ j) (hj : j < rs.length) :
    (nth rs i).max ≤ (nth rs j).max := by
  rcases Nat.lt_or_ge i j with h' | h'
  · exact le_of_lt (sinv_pair h h' hj).2
  · have : i = j := by omega
    subst this
    exact Nat.le_refl _

theorem sinv_min_mono {rs : List SelRegion} (h : SInv rs) {i j : Nat}
    (hij : i ≤ j) (hj : j < rs.length) :
    (nth rs i).min ≤ (nth rs j).min := by
  rcases Nat.lt_or_ge i j with h' | h'
  · exact le_trans (nth rs i).min_le_max (sinv_pair h h' hj).1
  · have : i = j := by omega
    subst this
    exact Nat.le_refl _

theorem sinv_take {rs : List SelRegion} (h : SInv rs) (n : Nat) :
    SInv (rs.take n) := by
  intro i hi
  rw [List.length_take] at hi
  have h1 : i < n := by omega
  have h2 : i + 1 < n := by omega
  have h3 : i + 1 < rs.length := by omega
  rw [nth_take h1, nth_take h2]
  exact sinv_adj h h3

theorem sinv_drop {rs : List SelRegion} (h : SInv rs) (n : Nat) :
    SInv (rs.drop n) := by
  intro i hi
  rw [List.length_drop] at hi
  rw [nth_drop, nth_drop]
  have : n + (i + 1) = (n + i) + 1 := by omega
  rw [this]
  exact sinv_adj h (by omega)

theorem sinv_nth_inj {rs : List SelRegion} (h : SInv rs) {i j : Nat}
    (hi : i < rs.length) (hj : j < rs.length) (he : nth rs i = nth rs j) :
    i = j := by
  rcases Nat.lt_trichotomy i j with h' | h' | h'
  · have := (sinv_pair h h' hj).2
    rw [he] at this
    omega
  · exact h'
  · have := (sinv_pair h h' hi).2
    rw [he] at this
    omega

/-! ### Binary search and Selection::search -/

theorem bsearchAux_le (rs : List SelRegion) (off : Nat) :
    ∀ (fuel left right : Nat), left ≤ right → right ≤ rs.length →
      Selection.bsearchAux rs off fuel left right ≤ rs.length := by
  intro fuel
  induction fuel with
  | zero => intro left right h1 h2; exact le_trans h1 h2
  | succ fuel ih =>
    intro left right h1 h2
    simp only [Selection.bsearchAux]
    split
    · split
      · exact ih _ _ (by omega) h2
      · split
        · exact ih _ _ (by omega) (by omega)
        · omega
    · exact le_trans h1 h2

theorem bsearchAux_spec (rs : List SelRegion) (off : Nat)
    (hmono : ∀ i j, i < j → j < rs.length →
      (nth rs i).max < (nth rs j).max) :
    ∀ (fuel left right : Nat), left ≤ right → right ≤ rs.length →
      right - left < fuel →
      (∀ j, j < left → (nth rs j).max < off) →
      (∀ j, right ≤ j → j < rs.length → off < (nth rs j).max) →
      (∀ j, j < Selection.bsearchAux rs off fuel left right →
        (nth rs j).max < off) ∧
      (Selection.bsearchAux rs off fuel left right < rs.length →
        off ≤ (nth rs (Selection.bsearchAux rs off fuel left right)).max) := by
  intro fuel
  induction fuel with
  | zero => omega
  | succ fuel ih =>
    intro left right h1 h2 h3 h4 h5
    simp only [Selection.bsearchAux]
    split
    · next hlr =>
      have hmidr : left + (right - left) / 2 < right := by omega
      have hmidl : left ≤ left + (right - left) / 2 := by omega
      split
      · next hkey =>
        refine ih (left + (right - left) / 2 + 1) right (by omega) h2
          (by omega) ?_ h5
        intro j hj
        rcases Nat.lt_or_ge j (left + (right - left) / 2) with h' | h'
        · exact lt_trans (hmono j _ h' (by omega)) hkey
        · have : j = left + (right - left) / 2 := by omega
          subst this
          exact hkey
      · split
        · next hkey =>
          refine ih left (left + (right - left) / 2) hmidl (by omega)
            (by omega) h4 ?_
          intro j hj hjl
          rcases Nat.lt_or_ge (left + (right - left) / 2) j with h' | h'
          · exact lt_trans hkey (hmono _ j h' hjl)
          · have : j = left + (right - left) / 2 := by omega
            subst this
            exact hkey
        · next hk1 hk2 =>
          have hkey : (nth rs (left + (right - left) / 2)).max = off := by
            have e1 : ¬ (nth rs (left + (right - left) / 2)).max < off := hk1
            have e2 : ¬ off < (nth rs (left + (right - left) / 2)).max := hk2
            omega
          constructor
          · intro j hj
            have := hmono j (left + (right - left) / 2) hj (by omega)
            omega
          · intro _
            omega
    · next hlr =>
      have hrl : left = right := by omega
      constructor
      · exact h4
      · intro hlen
        exact le_of_lt (h5 left (by omega) hlen)

theorem search_le (s : Selection) (off : Nat) :
    s.search off ≤ s.regions.length := by
  unfold Selection.search
  split
  · exact Nat.le_refl _
  · split
    · exact Nat.le_refl _
    · exact bsearchAux_le _ _ _ _ _ (Nat.zero_le _) (Nat.le_refl _)

theorem search_spec (s : Selection) (off : Nat)
    (hmono : ∀ i j, i < j → j < s.regions.length →
      (nth s.regions i).max < (nth s.regions j).max) :
    (∀ j, j < s.search off → (nth s.regions j).max < off) ∧
      (s.search off < s.regions.length →
        off ≤ (nth s.regions (s.search off)).max) := by
  unfold Selection.search
  split
  · next hg =>
    have he : s.regions = [] := List.getLast?_eq_none_iff.1 hg
    constructor
    · intro j hj
      rw [he] at hj
      simp at hj
    · intro hc
      omega
  · next lastr hg =>
    have hlast : nth s.regions (s.regions.length - 1) = lastr := by
      rw [List.getLast?_eq_getElem?] at hg
      unfold nth
      simp [List.getD_eq_getElem?_getD, hg]
    split
    · next hgt =>
      constructor
      · intro j hj
        rcases Nat.lt_or_ge j (s.regions.length - 1) with h' | h'
        · have := hmono j (s.regions.length - 1) h' (by omega)
          rw [hlast] at this
          omega
        · have hj' : j < s.regions.length := hj
          have : j = s.regions.length - 1 := by omega
          subst this
          rw [hlast]
          omega
      · intro hc
        omega
    · next hle =>
      refine bsearchAux_spec s.regions off hmono _ 0 s.regions.length
        (Nat.zero_le _) (Nat.le_refl _) (by omega) (by omega) ?_
      intro j hj hjl
      omega

end Lapce

namespace Lapce

/-! ### Claims about the movement computation and simple accessors -/

/-- C3 (amended): for every buffer, mode, region and count, Left(count)
sets horiz to Col of the resulting column, and the resulting end offset
never precedes the start of the line containing the original end offset
PROVIDED count does not exceed the end offset itself; when count exceeds
the end offset the code instead saturates the result to offset 0, which
can precede the current line's start. -/
theorem claim3_left_clamp (buffer : Buffer) (mode : Mode)
    (region : SelRegion) (count : Nat) :
    ((Movement.Left count).update_region region buffer mode).horiz =
      some (ColPosition.Col
        (buffer.offset_to_line_col
          ((Movement.Left count).update_region region buffer mode).stop).2) ∧
    (count ≤ region.stop →
      buffer.offset_of_line (buffer.line_of_offset region.stop) ≤
        ((Movement.Left count).update_region region buffer mode).stop) ∧
    (region.stop < count →
      ((Movement.Left count).update_region region buffer mode).stop = 0) := by
  refine ⟨rfl, ?_, ?_⟩
  · intro h
    show buffer.offset_of_line (buffer.line_of_offset region.stop) ≤
      (if region.stop < count then 0
       else if region.stop - count >
          buffer.offset_of_line (buffer.line_of_offset region.stop)
       then region.stop - count
       else buffer.offset_of_line (buffer.line_of_offset region.stop))
    split
    · omega
    · split <;> omega
  · intro h
    show (if region.stop < count then 0
       else if region.stop - count >
          buffer.offset_of_line (buffer.line_of_offset region.stop)
       then region.stop - count
       else buffer.offset_of_line (buffer.line_of_offset region.stop)) = 0
    rw [if_pos h]

/-- Witness for claim3_left_clamp at a concrete input. -/
theorem claim3_left_clamp_witness :
    (1 ≤ (SelRegion.new 6 6 none).stop ∧
      bTwoLines.offset_of_line
          (bTwoLines.line_of_offset (SelRegion.new 6 6 none).stop) ≤
        ((Movement.Left 1).update_region (SelRegion.new 6 6 none) bTwoLines
          Mode.Normal).stop) :=
  ⟨by decide,
    (claim3_left_clamp bTwoLines Mode.Normal (SelRegion.new 6 6 none) 1).2.1
      (by decide)⟩

/-- C3 counterexample: the claim as stated is false.  On the two-line
buffer, the caret at offset 6 sits at the start of line 1 (line start
offset 6); Left(7) produces end offset 0, which precedes the start of
the line containing the original end offset. -/
theorem claim3_counterexample :
    ¬ (bTwoLines.offset_of_line
        (bTwoLines.line_of_offset (SelRegion.new 6 6 none).stop) ≤
      ((Movement.Left 7).update_region (SelRegion.new 6 6 none) bTwoLines
        Mode.Normal).stop) := by decide

/-- C6: apply_delta computes exactly the per-endpoint biases of the
spec: a caret region uses the after flag for both endpoints; a true
range uses (!forward, forward) for Inside drift and (forward, !forward)
for Outside drift, where forward means start < end. -/
theorem claim6_apply_delta_bias (s : Selection)
    (transform : Nat → Bool → Nat) (after : Bool) (drift : InsertDrift) :
    s.apply_delta transform after drift =
      s.regions.foldl
        (fun result region =>
          result.add_region
            (SelRegion.new (transform region.start (biasSpec drift after region).1)
              (transform region.stop (biasSpec drift after region).2) none))
        Selection.new := by
  unfold Selection.apply_delta
  apply List.foldl_ext
  intro acc r _
  have : (match drift, (r.start == r.stop) with
      | InsertDrift.Inside, false =>
        (!decide (r.start < r.stop), decide (r.start < r.stop))
      | InsertDrift.Outside, false =>
        (decide (r.start < r.stop), !decide (r.start < r.stop))
      | _, _ => (after, after)) = biasSpec drift after r := by
    unfold biasSpec SelRegion.is_caret
    cases drift <;> cases h : (r.start == r.stop) <;> simp [h]
  simp only []
  rw [this]

/-- C7: update_region keeps the original start in Visual mode and
collapses start to the newly computed end in every other mode. -/
theorem claim7_visual_anchor (m : Movement) (region : SelRegion)
    (buffer : Buffer) (mode : Mode) :
    (m.update_region region buffer mode).start =
      if mode = Mode.Visual then region.start
      else (m.update_region region buffer mode).stop := by
  cases mode <;> rfl

/-- C8: Selection::min returns the min extent of the last region in
stored order; on a selection (built by add_region) whose regions'
directions diverge this is not the global minimum across all regions:
the concrete selection stores extents with mins [0, 5] yet min() is 5. -/
theorem claim8_min_last :
    (∀ (s : Selection) (h : s.regions ≠ []),
      s.min = (s.regions.getLast h).min) ∧
    (((Selection.region 0 2).add_region (SelRegion.new 9 5 none)).min = 5 ∧
      ((Selection.region 0 2).add_region (SelRegion.new 9 5 none)).regions.map
          SelRegion.min = [0, 5]) := by
  constructor
  · intro s h
    unfold Selection.min
    rw [List.getLast_eq_getElem]
    congr 1
    have hl : s.regions.length - 1 < s.regions.length := by
      cases hc : s.regions with
      | nil => exact absurd hc h
      | cons a l => simp [hc]
    simp [List.getD_eq_getElem?_getD, List.getElem?_eq_getElem hl]
  · exact ⟨by decide, by decide⟩

/-- Witness for claim8_min_last at a concrete input. -/
theorem claim8_min_last_witness :
    ((Selection.region 0 2).add_region (SelRegion.new 9 5 none)).regions ≠ [] ∧
    ((Selection.region 0 2).add_region (SelRegion.new 9 5 none)).min =
      (((Selection.region 0 2).add_region (SelRegion.new 9 5 none)).regions.getLast
        (by decide)).min :=
  ⟨by decide,
    claim8_min_last.1 ((Selection.region 0 2).add_region (SelRegion.new 9 5 none))
      (by decide)⟩

/-- C9: on a non-empty Selection, the index accesses of
get_cursor_offset, min, collapse and to_caret all succeed (the fallible
embedding returns some); only on the empty Selection do they fail. -/
theorem claim9_nonempty_safe (s : Selection) :
    (s.get_cursor_offsetF.isSome ↔ s.regions ≠ []) ∧
    (s.minF.isSome ↔ s.regions ≠ []) ∧
    (s.collapseF.isSome ↔ s.regions ≠ []) ∧
    (s.to_caretF.isSome ↔ s.regions ≠ []) := by
  obtain ⟨rs⟩ := s
  cases rs with
  | nil =>
    simp [Selection.get_cursor_offsetF, Selection.minF, Selection.collapseF,
      Selection.to_caretF]
  | cons a l =>
    have hl : l.length + 1 - 1 < (a :: l).length := by simp
    simp [Selection.get_cursor_offsetF, Selection.minF, Selection.collapseF,
      Selection.to_caretF, List.get?_eq_getElem?,
      List.getElem?_eq_getElem hl]

/-! ### The merge loop of add_region -/

theorem mergeLoop_cons_true {region x : SelRegion} {rest : List SelRegion}
    (h : region.should_merge x = true) :
    Selection.mergeLoopAux region (x :: rest) =
      ((Selection.mergeLoopAux (region.merge_with x) rest).1,
        (Selection.mergeLoopAux (region.merge_with x) rest).2 + 1) := by
  simp [Selection.mergeLoopAux, h]

theorem mergeLoop_cons_false {region x : SelRegion} {rest : List SelRegion}
    (h : region.should_merge x = false) :
    Selection.mergeLoopAux region (x :: rest) = (region, 0) := by
  simp [Selection.mergeLoopAux, h]

theorem mergeLoop_le :
    ∀ (l : List SelRegion) (region : SelRegion),
      (Selection.mergeLoopAux region l).2 ≤ l.length := by
  intro l
  induction l with
  | nil => intro region; exact Nat.zero_le _
  | cons x rest ih =>
    intro region
    cases h : region.should_merge x with
    | true =>
      rw [mergeLoop_cons_true h]
      exact Nat.succ_le_succ (ih _)
    | false =>
      rw [mergeLoop_cons_false h]
      exact Nat.zero_le _

theorem mergeLoop_eq_fold :
    ∀ (l : List SelRegion) (region : SelRegion),
      (Selection.mergeLoopAux region l).1 =
        mergeFold region (l.take (Selection.mergeLoopAux region l).2) := by
  intro l
  induction l with
  | nil => intro region; rfl
  | cons x rest ih =>
    intro region
    cases h : region.should_merge x with
    | true =>
      rw [mergeLoop_cons_true h]
      show (Selection.mergeLoopAux (region.merge_with x) rest).1 =
        mergeFold region
          ((x :: rest).take ((Selection.mergeLoopAux (region.merge_with x) rest).2 + 1))
      rw [List.take_succ_cons]
      exact ih _
    | false =>
      rw [mergeLoop_cons_false h]
      rfl

theorem mergeLoop_stop :
    ∀ (l : List SelRegion) (region : SelRegion),
      (Selection.mergeLoopAux region l).2 < l.length →
        (Selection.mergeLoopAux region l).1.should_merge
          (nth l (Selection.mergeLoopAux region l).2) = false := by
  intro l
  induction l with
  | nil => intro region h; simp at h
  | cons x rest ih =>
    intro region
    cases h : region.should_merge x with
    | true =>
      rw [mergeLoop_cons_true h]
      intro hlen
      have := ih (region.merge_with x) (by simpa using hlen)
      simpa [nth_cons_succ] using this
    | false =>
      rw [mergeLoop_cons_false h]
      intro _
      simpa [nth_cons_zero] using h

theorem mergeLoop_step :
    ∀ (l : List SelRegion) (region : SelRegion) (i : Nat),
      i < (Selection.mergeLoopAux region l).2 →
        (mergeFold region (l.take i)).should_merge (nth l i) = true := by
  intro l
  induction l with
  | nil => intro region i h; simp [Selection.mergeLoopAux] at h
  | cons x rest ih =>
    intro region i
    cases h : region.should_merge x with
    | true =>
      rw [mergeLoop_cons_true h]
      intro hi
      cases i with
      | zero => simpa [mergeFold, nth_cons_zero] using h
      | succ i =>
        have := ih (region.merge_with x) i (by omega)
        rw [List.take_succ_cons]
        simpa [mergeFold, nth_cons_succ] using this
    | false =>
      rw [mergeLoop_cons_false h]
      intro hi
      omega

/-! ### List surgery lemmas for add_region -/

theorem remove_n_at_eq {α : Type} (v : List α) (index n : Nat) :
    remove_n_at v index n = v.take index ++ v.drop (index + n) := by
  unfold remove_n_at
  split
  · next h =>
    subst h
    exact List.eraseIdx_eq_take_drop_succ v index
  · split
    · rfl
    · next h1 h2 =>
      have : n = 0 := by omega
      subst this
      rw [Nat.add_zero]
      exact (List.take_append_drop index v).symm

theorem take_set_succ :
    ∀ (l : List SelRegion) (i : Nat) (v : SelRegion), i < l.length →
      (l.set i v).take (i + 1) = l.take i ++ [v] := by
  intro l
  induction l with
  | nil => intro i v h; simp at h
  | cons x rest ih =>
    intro i v h
    cases i with
    | zero => simp
    | succ i =>
      have := ih i v (by simpa using h)
      simp only [List.set_cons_succ, List.take_succ_cons, this, List.cons_append]

theorem drop_set_ge (l : List SelRegion) (i b : Nat) (v : SelRegion)
    (h : i < b) : (l.set i v).drop b = l.drop b := by
  rw [List.drop_set, if_pos h]

/-! ### The decomposition equation for add_region -/

theorem add_region_def_eq (s : Selection) (r : SelRegion) :
    s.add_region r =
      (if s.search r.min = s.regions.length then
        (⟨s.regions ++ [r]⟩ : Selection)
      else if (addT s r).2.1 =
          (addT s r).2.2 +
            (Selection.mergeLoopAux (addT s r).1
              (s.regions.drop (addT s r).2.2)).2 then
        ⟨s.regions.take (addT s r).2.1 ++
          (Selection.mergeLoopAux (addT s r).1
            (s.regions.drop (addT s r).2.2)).1 ::
            s.regions.drop (addT s r).2.1⟩
      else
        ⟨remove_n_at
          (s.regions.set (addT s r).2.1
            (Selection.mergeLoopAux (addT s r).1
              (s.regions.drop (addT s r).2.2)).1)
          ((addT s r).2.1 + 1)
          ((addT s r).2.2 +
            (Selection.mergeLoopAux (addT s r).1
              (s.regions.drop (addT s r).2.2)).2 -
            (addT s r).2.1 - 1)⟩) := rfl

theorem addT_cases (s : Selection) (r : SelRegion) :
    (addT s r =
        ((s.regions.getD (s.search r.min) default).merge_with r,
          s.search r.min, s.search r.min + 1) ∧
      (s.regions.getD (s.search r.min) default).min ≤ r.min ∧
      (s.regions.getD (s.search r.min) default).should_merge r = true) ∨
    (addT s r = (r, s.search r.min + 1, s.search r.min + 1) ∧
      (s.regions.getD (s.search r.min) default).min ≤ r.min ∧
      (s.regions.getD (s.search r.min) default).should_merge r = false) ∨
    (addT s r = (r, s.search r.min, s.search r.min) ∧
      r.min < (s.regions.getD (s.search r.min) default).min) := by
  unfold addT
  by_cases h1 : (s.regions.getD (s.search r.min) default).min ≤ r.min
  · rw [if_pos h1]
    by_cases h2 : (s.regions.getD (s.search r.min) default).should_merge r = true
    · rw [if_pos h2]
      exact Or.inl ⟨rfl, h1, h2⟩
    · have h2' : (s.regions.getD (s.search r.min) default).should_merge r = false := by
        revert h2
        cases (s.regions.getD (s.search r.min) default).should_merge r <;> simp
      rw [if_neg h2]
      exact Or.inr (Or.inl ⟨rfl, h1, h2'⟩)
  · rw [if_neg h1]
    exact Or.inr (Or.inr ⟨rfl, by omega⟩)

theorem addT_bounds (s : Selection) (r : SelRegion)
    (hix : s.search r.min ≠ s.regions.length) :
    (addT s r).2.1 ≤ (addT s r).2.2 ∧
      (addT s r).2.2 ≤ s.regions.length ∧
      s.search r.min ≤ (addT s r).2.1 ∧
      (addT s r).2.1 ≤ s.search r.min + 1 ∧
      s.search r.min ≤ (addT s r).2.2 := by
  have hlt : s.search r.min < s.regions.length := by
    have := search_le s r.min
    omega
  rcases addT_cases s r with ⟨he, -, -⟩ | ⟨he, -, -⟩ | ⟨he, -⟩ <;>
    rw [he] <;> simp <;> omega

theorem addParts_eq_pos (s : Selection) (r : SelRegion)
    (hix : s.search r.min = s.regions.length) :
    addParts s r = (s.regions.length, s.regions.length, r) := by
  unfold addParts
  rw [if_pos hix]

theorem addParts_eq_neg (s : Selection) (r : SelRegion)
    (hix : s.search r.min ≠ s.regions.length) :
    addParts s r =
      ((addT s r).2.1,
        (addT s r).2.2 +
          (Selection.mergeLoopAux (addT s r).1
            (s.regions.drop (addT s r).2.2)).2,
        (Selection.mergeLoopAux (addT s r).1
          (s.regions.drop (addT s r).2.2)).1) := by
  unfold addParts
  rw [if_neg hix]

theorem addParts_bounds (s : Selection) (r : SelRegion) :
    (addParts s r).1 ≤ (addParts s r).2.1 ∧
      (addParts s r).2.1 ≤ s.regions.length := by
  by_cases hix : s.search r.min = s.regions.length
  · rw [addParts_eq_pos s r hix]
    exact ⟨Nat.le_refl _, Nat.le_refl _⟩
  · rw [addParts_eq_neg s r hix]
    have hb := addT_bounds s r hix
    have hcnt := mergeLoop_le (s.regions.drop (addT s r).2.2) (addT s r).1
    rw [List.length_drop] at hcnt
    constructor
    · simp only []
      omega
    · simp only []
      omega

/-! ### Window and overlap helper lemmas -/

theorem nth_eq_getElem {rs : List SelRegion} {i : Nat} (h : i < rs.length) :
    nth rs i = rs[i] := by
  simp [nth, List.getD_eq_getElem?_getD, List.getElem?_eq_getElem h]

theorem drop_cons_nth {rs : List SelRegion} {i : Nat} (h : i < rs.length) :
    rs.drop i = nth rs i :: rs.drop (i + 1) := by
  rw [List.drop_eq_getElem_cons h, nth_eq_getElem h]

theorem foldMin_cons (x : SelRegion) (l : List SelRegion) (z : Nat) :
    foldMin (x :: l) z = foldMin l (Nat.min z x.min) := rfl

theorem foldMax_cons (x : SelRegion) (l : List SelRegion) (z : Nat) :
    foldMax (x :: l) z = foldMax l (Nat.max z x.max) := rfl

theorem mergeFold_take_succ (l : List SelRegion) (region : SelRegion)
    (i : Nat) (h : i < l.length) :
    mergeFold region (l.take (i + 1)) =
      (mergeFold region (l.take i)).merge_with (nth l i) := by
  rw [List.take_succ, List.getElem?_eq_getElem h]
  show mergeFold region (l.take i ++ [l[i]]) = _
  unfold mergeFold
  rw [List.foldl_append, nth_eq_getElem h]
  rfl

theorem nth_mem_window {rs : List SelRegion} {a b k : Nat}
    (h1 : a ≤ k) (h2 : k < b) (h3 : b ≤ rs.length) :
    nth rs k ∈ (rs.drop a).take (b - a) := by
  refine mem_iff_nth.2 ⟨k - a, ?_, ?_⟩
  · rw [List.length_take, List.length_drop]
    omega
  · rw [nth_take (by omega), nth_drop]
    congr 1
    omega

theorem mem_overlapsOf {rs : List SelRegion} {r q : SelRegion} :
    q ∈ overlapsOf rs r ↔ q ∈ rs ∧ r.min < q.max ∧ q.min < r.max := by
  unfold overlapsOf
  simp [List.mem_filter]

theorem umin_le (rs : List SelRegion) (r : SelRegion) :
    unionMin rs r ≤ r.min := foldMin_le_init _ _

theorem le_umax (rs : List SelRegion) (r : SelRegion) :
    r.max ≤ unionMax rs r := init_le_foldMax _ _

theorem umin_le_overlap {rs : List SelRegion} {r q : SelRegion}
    (h : q ∈ overlapsOf rs r) : unionMin rs r ≤ q.min :=
  foldMin_le_mem _ _ h

theorem overlap_le_umax {rs : List SelRegion} {r q : SelRegion}
    (h : q ∈ overlapsOf rs r) : q.max ≤ unionMax rs r :=
  mem_le_foldMax _ _ h

theorem overlap_index {rs : List SelRegion} {r q : SelRegion}
    (h : q ∈ overlapsOf rs r) :
    ∃ k, k < rs.length ∧ nth rs k = q ∧ r.min < q.max ∧ q.min < r.max := by
  rcases mem_overlapsOf.1 h with ⟨hmem, h1, h2⟩
  rcases mem_iff_nth.1 hmem with ⟨k, hk, he⟩
  exact ⟨k, hk, he, h1, h2⟩

/-- The merged region stays inside the union extent of r and its true
overlaps, along the whole merge loop.  The third invariant clause
bounds the running max by either r.max or the max of the last merged
region, which pins down which regions the loop can consume. -/
theorem loopU (s : Selection) (r : SelRegion) (hs : SInv s.regions)
    (hO : overlapsOf s.regions r ≠ [])
    (t : Nat)
    (hidx : ∀ k, t ≤ k → k < s.regions.length →
      r.min < (nth s.regions k).max)
    (region1 : SelRegion)
    (hc : region1.min ≤ r.min ∧ r.max ≤ region1.max)
    (hu : unionMin s.regions r ≤ region1.min ∧
      region1.max ≤ unionMax s.regions r)
    (hm : region1.max ≤ r.max ∨
      (0 < t ∧ region1.max ≤ (nth s.regions (t - 1)).max)) :
    ∀ i, i ≤ (Selection.mergeLoopAux region1 (s.regions.drop t)).2 →
      unionMin s.regions r ≤
          (mergeFold region1 ((s.regions.drop t).take i)).min ∧
        (mergeFold region1 ((s.regions.drop t).take i)).max ≤
          unionMax s.regions r ∧
        ((mergeFold region1 ((s.regions.drop t).take i)).max ≤ r.max ∨
          (0 < t + i ∧
            (mergeFold region1 ((s.regions.drop t).take i)).max ≤
              (nth s.regions (t + i - 1)).max)) ∧
        (mergeFold region1 ((s.regions.drop t).take i)).min ≤ r.min ∧
        r.max ≤ (mergeFold region1 ((s.regions.drop t).take i)).max := by
  intro i
  induction i with
  | zero =>
    intro _
    simp only [List.take_zero]
    exact ⟨hu.1, hu.2, by simpa using hm, hc.1, hc.2⟩
  | succ i ih =>
    intro hi
    have hi' : i < (Selection.mergeLoopAux region1 (s.regions.drop t)).2 := by
      omega
    obtain ⟨ih1, ih2, ih3, ih4, ih5⟩ := ih (by omega)
    have hstep := mergeLoop_step (s.regions.drop t) region1 i hi'
    have hleni : i < (s.regions.drop t).length :=
      lt_of_lt_of_le hi' (mergeLoop_le _ _)
    have hklen : t + i < s.regions.length := by
      rw [List.length_drop] at hleni
      omega
    have hxnth : nth (s.regions.drop t) i = nth s.regions (t + i) := nth_drop _ _ _
    rw [mergeFold_take_succ _ _ _ hleni, hxnth]
    rw [hxnth] at hstep
    set F := mergeFold region1 ((s.regions.drop t).take i) with hF
    set x := nth s.regions (t + i) with hx
    have hmergemin : (F.merge_with x).min = Nat.min F.min x.min :=
      SelRegion.merge_min F x
    have hmergemax : (F.merge_with x).max = Nat.max F.max x.max :=
      SelRegion.merge_max F x
    rcases (SelRegion.should_merge_iff F x).1 hstep with hlt | ⟨hcar, heq⟩
    · -- true overlap of x with the running region
      have hxrmax : x.min < r.max := by
        rcases ih3 with h' | ⟨htpos, h'⟩
        · omega
        · have hadj : (nth s.regions (t + i - 1)).max ≤ x.min := by
            have h2 := (sinv_adj hs
              (show (t + i - 1) + 1 < s.regions.length by omega)).1
            have he : (t + i - 1) + 1 = t + i := by omega
            rw [he] at h2
            rw [hx]
            exact h2
          omega
      have hrxmax : r.min < x.max := hidx (t + i) (by omega) hklen
      have hxO : x ∈ overlapsOf s.regions r :=
        mem_overlapsOf.2 ⟨mem_iff_nth.2 ⟨t + i, hklen, rfl⟩, hrxmax, hxrmax⟩
      have hxmin : unionMin s.regions r ≤ x.min := umin_le_overlap hxO
      have hxmax : x.max ≤ unionMax s.regions r := overlap_le_umax hxO
      refine ⟨?_, ?_, ?_, ?_, ?_⟩
      · rw [hmergemin]
        exact le_min ih1 hxmin
      · rw [hmergemax]
        exact max_le ih2 hxmax
      · rw [hmergemax]
        rcases Nat.le_total F.max x.max with h' | h'
        · refine Or.inr ⟨by omega, ?_⟩
          have he1 : t + (i + 1) - 1 = t + i := by omega
          have hmx : Nat.max F.max x.max = x.max := Nat.max_eq_right h'
          rw [he1, hmx, hx]
        · have hmx : Nat.max F.max x.max = F.max := Nat.max_eq_left h'
          rw [hmx]
          rcases ih3 with h'' | ⟨htpos, h''⟩
          · exact Or.inl h''
          · refine Or.inr ⟨by omega, ?_⟩
            have he1 : t + (i + 1) - 1 = t + i := by omega
            rw [he1]
            have hmono : (nth s.regions (t + i - 1)).max ≤
                (nth s.regions (t + i)).max :=
              sinv_max_mono hs (by omega : t + i - 1 ≤ t + i) hklen
            omega
      · rw [hmergemin]
        exact le_trans (Nat.min_le_left _ _) ih4
      · rw [hmergemax]
        exact le_trans ih5 (Nat.le_max_left _ _)
    · -- boundary-touching merge: x.min = F.max, and F or x is a caret
      have hcar' : F.is_caret = true ∨ x.is_caret = true := by
        simpa using hcar
      rcases hcar' with hFc | hxc
      · -- the running region is a caret: then r is the same caret, and a
        -- true overlap of r would have to strictly contain it, which the
        -- invariant rules out on both sides; contradiction with hO
        exfalso
        have hFmm : F.min = F.max := (SelRegion.is_caret_iff F).1 hFc
        have hrminmax : r.min = F.max ∧ r.max = F.max := by
          have := r.min_le_max
          omega
        rcases List.exists_mem_of_ne_nil _ hO with ⟨q, hq⟩
        rcases overlap_index hq with ⟨k, hk, hknth, hq1, hq2⟩
        rcases Nat.lt_or_ge k (t + i) with hky | hky
        · have hpr := (sinv_pair hs hky hklen).1
          rw [hknth, ← hx] at hpr
          omega
        · have hpr := sinv_min_mono hs hky hk
          rw [hknth, ← hx] at hpr
          omega
      · -- x is a caret sitting exactly at the running max: extent unchanged
        have hxmm : x.min = x.max := (SelRegion.is_caret_iff x).1 hxc
        have hmineq : (F.merge_with x).min = F.min := by
          rw [hmergemin]
          have h1 := F.min_le_max
          have h2 : F.min ≤ x.min := by omega
          exact Nat.min_eq_left h2
        have hmaxeq : (F.merge_with x).max = F.max := by
          rw [hmergemax]
          have h2 : x.max ≤ F.max := by omega
          exact Nat.max_eq_left h2
        refine ⟨?_, ?_, ?_, ?_, ?_⟩
        · rw [hmineq]; exact ih1
        · rw [hmaxeq]; exact ih2
        · rw [hmaxeq]
          refine Or.inr ⟨by omega, ?_⟩
          have he1 : t + (i + 1) - 1 = t + i := by omega
          rw [he1, ← hx]
          omega
        · rw [hmineq]; exact ih4
        · rw [hmaxeq]; exact ih5

theorem add_region_eq (s : Selection) (r : SelRegion) :
    (s.add_region r).regions =
      s.regions.take (addParts s r).1 ++
        (addParts s r).2.2 :: s.regions.drop (addParts s r).2.1 := by
  by_cases hix : s.search r.min = s.regions.length
  · rw [add_region_def_eq, if_pos hix, addParts_eq_pos s r hix]
    show s.regions ++ [r] =
      s.regions.take s.regions.length ++ r :: s.regions.drop s.regions.length
    rw [List.take_length, List.drop_length]
  · rw [add_region_def_eq, if_neg hix, addParts_eq_neg s r hix]
    have hb := addT_bounds s r hix
    have hcnt := mergeLoop_le (s.regions.drop (addT s r).2.2) (addT s r).1
    rw [List.length_drop] at hcnt
    by_cases hab : (addT s r).2.1 =
        (addT s r).2.2 +
          (Selection.mergeLoopAux (addT s r).1
            (s.regions.drop (addT s r).2.2)).2
    · rw [if_pos hab]
      show s.regions.take (addT s r).2.1 ++ _ :: s.regions.drop (addT s r).2.1 = _
      rw [← hab]
    · rw [if_neg hab]
      show remove_n_at
          (s.regions.set (addT s r).2.1
            (Selection.mergeLoopAux (addT s r).1
              (s.regions.drop (addT s r).2.2)).1)
          ((addT s r).2.1 + 1)
          ((addT s r).2.2 +
            (Selection.mergeLoopAux (addT s r).1
              (s.regions.drop (addT s r).2.2)).2 -
            (addT s r).2.1 - 1) = _
      rw [remove_n_at_eq]
      have hlt : (addT s r).2.1 <
          (addT s r).2.2 +
            (Selection.mergeLoopAux (addT s r).1
              (s.regions.drop (addT s r).2.2)).2 := by omega
      have harith : (addT s r).2.1 + 1 +
          ((addT s r).2.2 +
            (Selection.mergeLoopAux (addT s r).1
              (s.regions.drop (addT s r).2.2)).2 -
            (addT s r).2.1 - 1) =
          (addT s r).2.2 +
            (Selection.mergeLoopAux (addT s r).1
              (s.regions.drop (addT s r).2.2)).2 := by omega
      rw [harith]
      rw [take_set_succ _ _ _ (by omega), drop_set_ge _ _ _ _ hlt]
      simp

/-! ### The master decomposition facts for add_region -/

theorem bool_eq_false {b : Bool} (h : ¬ b = true) : b = false := by
  cases b
  · rfl
  · exact absurd rfl h

theorem master_loop_part (s : Selection)
    (t : Nat) (region1 : SelRegion) (ht : t ≤ s.regions.length) :
    t + (Selection.mergeLoopAux region1 (s.regions.drop t)).2 ≤
        s.regions.length ∧
      (Selection.mergeLoopAux region1 (s.regions.drop t)).1.min =
        foldMin ((s.regions.drop t).take
          (Selection.mergeLoopAux region1 (s.regions.drop t)).2)
          region1.min ∧
      (Selection.mergeLoopAux region1 (s.regions.drop t)).1.max =
        foldMax ((s.regions.drop t).take
          (Selection.mergeLoopAux region1 (s.regions.drop t)).2)
          region1.max ∧
      (t + (Selection.mergeLoopAux region1 (s.regions.drop t)).2 <
          s.regions.length →
        (Selection.mergeLoopAux region1 (s.regions.drop t)).1.should_merge
          (nth s.regions
            (t + (Selection.mergeLoopAux region1 (s.regions.drop t)).2)) =
          false) := by
  have hle := mergeLoop_le (s.regions.drop t) region1
  rw [List.length_drop] at hle
  refine ⟨by omega, ?_, ?_, ?_⟩
  · rw [mergeLoop_eq_fold, mergeFold_min]
  · rw [mergeLoop_eq_fold, mergeFold_max]
  · intro hblen
    have hstop := mergeLoop_stop (s.regions.drop t) region1
      (by rw [List.length_drop]; omega)
    rw [nth_drop] at hstop
    exact hstop

theorem addParts_master (s : Selection) (r : SelRegion) (hs : SInv s.regions) :
    (addParts s r).1 ≤ (addParts s r).2.1 ∧
    (addParts s r).2.1 ≤ s.regions.length ∧
    (addParts s r).2.2.min =
      foldMin ((s.regions.drop (addParts s r).1).take
        ((addParts s r).2.1 - (addParts s r).1)) r.min ∧
    (addParts s r).2.2.max =
      foldMax ((s.regions.drop (addParts s r).1).take
        ((addParts s r).2.1 - (addParts s r).1)) r.max ∧
    (∀ j, j < (addParts s r).1 → (nth s.regions j).max ≤ r.min) ∧
    (∀ j, j + 1 = (addParts s r).1 → (nth s.regions j).max = r.min →
      (nth s.regions j).is_caret = false ∧ r.is_caret = false) ∧
    ((addParts s r).2.1 < s.regions.length →
      (addParts s r).2.2.should_merge
        (nth s.regions (addParts s r).2.1) = false) ∧
    ((addParts s r).2.2.min ≤ r.min ∧ r.max ≤ (addParts s r).2.2.max) ∧
    s.search r.min ≤ (addParts s r).1 ∧
    (overlapsOf s.regions r ≠ [] →
      unionMin s.regions r ≤ (addParts s r).2.2.min ∧
      (addParts s r).2.2.max ≤ unionMax s.regions r) := by
  have hmono : ∀ i j, i < j → j < s.regions.length →
      (nth s.regions i).max < (nth s.regions j).max :=
    fun i j hij hj => (sinv_pair hs hij hj).2
  have hsp := search_spec s r.min hmono
  by_cases hix : s.search r.min = s.regions.length
  · -- append path: the window is empty and the new region is appended
    rw [addParts_eq_pos s r hix]
    dsimp only
    have halllt : ∀ j, j < s.regions.length → (nth s.regions j).max < r.min := by
      intro j hj
      refine hsp.1 j ?_
      omega
    refine ⟨Nat.le_refl _, Nat.le_refl _, ?_, ?_, ?_, ?_, ?_, ?_, ?_, ?_⟩
    · rw [Nat.sub_self, List.take_zero]
      rfl
    · rw [Nat.sub_self, List.take_zero]
      rfl
    · intro j hj
      exact le_of_lt (halllt j (by omega))
    · intro j hj1 hj2
      have := halllt j (by omega)
      omega
    · intro hc
      omega
    · exact ⟨Nat.le_refl _, Nat.le_refl _⟩
    · omega
    · intro hO
      exfalso
      rcases List.exists_mem_of_ne_nil _ hO with ⟨q, hq⟩
      rcases overlap_index hq with ⟨k, hk, hknth, hq1, hq2⟩
      have := halllt k hk
      rw [hknth] at this
      omega
  · -- replacement path
    have hlt : s.search r.min < s.regions.length :=
      lt_of_le_of_ne (search_le s r.min) hix
    have hle0 : r.min ≤ (nth s.regions (s.search r.min)).max := hsp.2 hlt
    have hr0 : s.regions.getD (s.search r.min) default =
        nth s.regions (s.search r.min) := rfl
    rw [addParts_eq_neg s r hix]
    rcases addT_cases s r with ⟨he, hmin0, hsm⟩ | ⟨he, hmin0, hsm⟩ | ⟨he, hmin0⟩
    · -- A1: the region at the search index is merged first
      rw [hr0] at he hmin0 hsm
      rw [he]
      dsimp only
      have hml := master_loop_part s (s.search r.min + 1)
        ((nth s.regions (s.search r.min)).merge_with r) (by omega)
      obtain ⟨hml1, hml2, hml3, hml4⟩ := hml
      have hmgmin := SelRegion.merge_min (nth s.regions (s.search r.min)) r
      have hmgmax := SelRegion.merge_max (nth s.regions (s.search r.min)) r
      have hwin : (s.regions.drop (s.search r.min)).take
            (s.search r.min + 1 +
              (Selection.mergeLoopAux
                ((nth s.regions (s.search r.min)).merge_with r)
                (s.regions.drop (s.search r.min + 1))).2 -
              s.search r.min) =
          nth s.regions (s.search r.min) ::
            (s.regions.drop (s.search r.min + 1)).take
              (Selection.mergeLoopAux
                ((nth s.regions (s.search r.min)).merge_with r)
                (s.regions.drop (s.search r.min + 1))).2 := by
        rw [drop_cons_nth hlt]
        rw [show s.search r.min + 1 +
            (Selection.mergeLoopAux
              ((nth s.regions (s.search r.min)).merge_with r)
              (s.regions.drop (s.search r.min + 1))).2 -
            s.search r.min =
            (Selection.mergeLoopAux
              ((nth s.regions (s.search r.min)).merge_with r)
              (s.regions.drop (s.search r.min + 1))).2 + 1 from by omega]
        rw [List.take_succ_cons]
      refine ⟨by omega, by omega, ?_, ?_, ?_, ?_, ?_, ?_, ?_, ?_⟩
      · have hcomm : Nat.min (nth s.regions (s.search r.min)).min r.min =
            Nat.min r.min (nth s.regions (s.search r.min)).min :=
          Nat.min_comm _ _
        rw [hml2, hwin, foldMin_cons, hmgmin, hcomm]
      · have hcomm : Nat.max (nth s.regions (s.search r.min)).max r.max =
            Nat.max r.max (nth s.regions (s.search r.min)).max :=
          Nat.max_comm _ _
        rw [hml3, hwin, foldMax_cons, hmgmax, hcomm]
      · intro j hj
        exact le_of_lt (hsp.1 j hj)
      · intro j hj1 hj2
        have := hsp.1 j (by omega)
        omega
      · exact hml4
      · constructor
        · rw [hml2]
          refine le_trans (foldMin_le_init _ _) ?_
          rw [hmgmin]
          exact Nat.min_le_right _ _
        · rw [hml3]
          refine le_trans ?_ (init_le_foldMax _ _)
          rw [hmgmax]
          exact Nat.le_max_right _ _
      · exact Nat.le_refl _
      · intro hO
        -- the merged first region is inside the union extent
        have hins : unionMin s.regions r ≤ (nth s.regions (s.search r.min)).min ∧
            (nth s.regions (s.search r.min)).max ≤ unionMax s.regions r := by
          rcases (SelRegion.should_merge_iff _ _).1 hsm with hlt1 | ⟨hcar, heq0⟩
          · by_cases hx1 : (nth s.regions (s.search r.min)).min < r.max
            · have hmem : nth s.regions (s.search r.min) ∈ overlapsOf s.regions r :=
                mem_overlapsOf.2
                  ⟨mem_iff_nth.2 ⟨s.search r.min, hlt, rfl⟩, hlt1, hx1⟩
              exact ⟨umin_le_overlap hmem, overlap_le_umax hmem⟩
            · exfalso
              have hrc : r.min = r.max := by
                have := r.min_le_max
                omega
              rcases List.exists_mem_of_ne_nil _ hO with ⟨q, hq⟩
              rcases overlap_index hq with ⟨k, hk, hknth, hq1, hq2⟩
              rcases Nat.lt_trichotomy k (s.search r.min) with hky | hky | hky
              · have := hsp.1 k hky
                rw [hknth] at this
                omega
              · subst hky
                rw [hknth] at hx1
                omega
              · have := (sinv_pair hs hky hk).1
                rw [hknth] at this
                omega
          · have hcar' : (nth s.regions (s.search r.min)).is_caret = true ∨
                r.is_caret = true := by simpa using hcar
            rcases hcar' with hc0 | hcr
            · have := (SelRegion.is_caret_iff _).1 hc0
              constructor
              · have h1 := umin_le s.regions r
                omega
              · have h1 := le_umax s.regions r
                have h2 := r.min_le_max
                omega
            · exfalso
              have hrc := (SelRegion.is_caret_iff r).1 hcr
              rcases List.exists_mem_of_ne_nil _ hO with ⟨q, hq⟩
              rcases overlap_index hq with ⟨k, hk, hknth, hq1, hq2⟩
              rcases Nat.lt_trichotomy k (s.search r.min) with hky | hky | hky
              · have := hsp.1 k hky
                rw [hknth] at this
                omega
              · subst hky
                rw [hknth] at heq0
                omega
              · have := (sinv_pair hs hky hk).1
                rw [hknth] at this
                omega
        have hidx : ∀ k, s.search r.min + 1 ≤ k → k < s.regions.length →
            r.min < (nth s.regions k).max := by
          intro k hk1 hk2
          have := hmono (s.search r.min) k (by omega) hk2
          omega
        have hc1 : ((nth s.regions (s.search r.min)).merge_with r).min ≤ r.min ∧
            r.max ≤ ((nth s.regions (s.search r.min)).merge_with r).max := by
          rw [hmgmin, hmgmax]
          exact ⟨Nat.min_le_right _ _, Nat.le_max_right _ _⟩
        have hu1 : unionMin s.regions r ≤
              ((nth s.regions (s.search r.min)).merge_with r).min ∧
            ((nth s.regions (s.search r.min)).merge_with r).max ≤
              unionMax s.regions r := by
          rw [hmgmin, hmgmax]
          constructor
          · exact le_min hins.1 (umin_le s.regions r)
          · exact max_le hins.2 (le_umax s.regions r)
        have hm1 : ((nth s.regions (s.search r.min)).merge_with r).max ≤ r.max ∨
            (0 < s.search r.min + 1 ∧
              ((nth s.regions (s.search r.min)).merge_with r).max ≤
                (nth s.regions (s.search r.min + 1 - 1)).max) := by
          rw [hmgmax]
          rcases Nat.le_total (nth s.regions (s.search r.min)).max r.max with h' | h'
          · left
            exact max_le h' (Nat.le_refl _)
          · right
            refine ⟨by omega, ?_⟩
            rw [show s.search r.min + 1 - 1 = s.search r.min from by omega]
            exact max_le (Nat.le_refl _) h'
        have hloop := loopU s r hs hO (s.search r.min + 1) hidx
          ((nth s.regions (s.search r.min)).merge_with r) hc1 hu1 hm1
          (Selection.mergeLoopAux
            ((nth s.regions (s.search r.min)).merge_with r)
            (s.regions.drop (s.search r.min + 1))).2 (Nat.le_refl _)
        rw [← mergeLoop_eq_fold] at hloop
        exact ⟨hloop.1, hloop.2.1⟩
    · -- A2: the region at the search index touches but is not merged
      rw [hr0] at hmin0 hsm
      rw [he]
      dsimp only
      have hnsm : ¬ (r.min < (nth s.regions (s.search r.min)).max ∨
          (((nth s.regions (s.search r.min)).is_caret = true ∨
            r.is_caret = true) ∧
            r.min = (nth s.regions (s.search r.min)).max)) := by
        rw [← SelRegion.should_merge_iff]
        simp [hsm]
      have heq0 : (nth s.regions (s.search r.min)).max = r.min := by
        rcases Nat.lt_or_ge r.min (nth s.regions (s.search r.min)).max with h' | h'
        · exact absurd (Or.inl h') hnsm
        · omega
      have hncar : (nth s.regions (s.search r.min)).is_caret = false ∧
          r.is_caret = false := by
        constructor
        · refine bool_eq_false ?_
          intro hc
          exact hnsm (Or.inr ⟨Or.inl hc, heq0.symm⟩)
        · refine bool_eq_false ?_
          intro hc
          exact hnsm (Or.inr ⟨Or.inr hc, heq0.symm⟩)
      have hml := master_loop_part s (s.search r.min + 1) r (by omega)
      obtain ⟨hml1, hml2, hml3, hml4⟩ := hml
      have hwineq : s.search r.min + 1 +
          (Selection.mergeLoopAux r (s.regions.drop (s.search r.min + 1))).2 -
          (s.search r.min + 1) =
          (Selection.mergeLoopAux r (s.regions.drop (s.search r.min + 1))).2 := by
        omega
      refine ⟨by omega, by omega, ?_, ?_, ?_, ?_, ?_, ?_, ?_, ?_⟩
      · rw [hwineq, hml2]
      · rw [hwineq, hml3]
      · intro j hj
        rcases Nat.lt_or_ge j (s.search r.min) with h' | h'
        · exact le_of_lt (hsp.1 j h')
        · have : j = s.search r.min := by omega
          subst this
          omega
      · intro j hj1 hj2
        have : j = s.search r.min := by omega
        subst this
        exact ⟨hncar.1, hncar.2⟩
      · exact hml4
      · constructor
        · rw [hml2]
          exact foldMin_le_init _ _
        · rw [hml3]
          exact init_le_foldMax _ _
      · omega
      · intro hO
        have hidx : ∀ k, s.search r.min + 1 ≤ k → k < s.regions.length →
            r.min < (nth s.regions k).max := by
          intro k hk1 hk2
          have := hmono (s.search r.min) k (by omega) hk2
          omega
        have hloop := loopU s r hs hO (s.search r.min + 1) hidx r
          ⟨Nat.le_refl _, Nat.le_refl _⟩
          ⟨umin_le s.regions r, le_umax s.regions r⟩
          (Or.inl (Nat.le_refl _))
          (Selection.mergeLoopAux r (s.regions.drop (s.search r.min + 1))).2
          (Nat.le_refl _)
        rw [← mergeLoop_eq_fold] at hloop
        exact ⟨hloop.1, hloop.2.1⟩
    · -- B: the region at the search index starts past the new region
      rw [hr0] at hmin0
      rw [he]
      dsimp only
      have hstrict : r.min < (nth s.regions (s.search r.min)).max := by
        rcases Nat.lt_or_ge r.min (nth s.regions (s.search r.min)).max with h' | h'
        · exact h'
        · have := (nth s.regions (s.search r.min)).min_le_max
          omega
      have hml := master_loop_part s (s.search r.min) r (by omega)
      obtain ⟨hml1, hml2, hml3, hml4⟩ := hml
      have hwineq : s.search r.min +
          (Selection.mergeLoopAux r (s.regions.drop (s.search r.min))).2 -
          s.search r.min =
          (Selection.mergeLoopAux r (s.regions.drop (s.search r.min))).2 := by
        omega
      refine ⟨by omega, by omega, ?_, ?_, ?_, ?_, ?_, ?_, ?_, ?_⟩
      · rw [hwineq, hml2]
      · rw [hwineq, hml3]
      · intro j hj
        exact le_of_lt (hsp.1 j hj)
      · intro j hj1 hj2
        have := hsp.1 j (by omega)
        omega
      · exact hml4
      · constructor
        · rw [hml2]
          exact foldMin_le_init _ _
        · rw [hml3]
          exact init_le_foldMax _ _
      · exact Nat.le_refl _
      · intro hO
        have hidx : ∀ k, s.search r.min ≤ k → k < s.regions.length →
            r.min < (nth s.regions k).max := by
          intro k hk1 hk2
          rcases Nat.lt_or_ge (s.search r.min) k with h' | h'
          · have := hmono (s.search r.min) k h' hk2
            omega
          · have : k = s.search r.min := by omega
            subst this
            exact hstrict
        have hloop := loopU s r hs hO (s.search r.min) hidx r
          ⟨Nat.le_refl _, Nat.le_refl _⟩
          ⟨umin_le s.regions r, le_umax s.regions r⟩
          (Or.inl (Nat.le_refl _))
          (Selection.mergeLoopAux r (s.regions.drop (s.search r.min))).2
          (Nat.le_refl _)
        rw [← mergeLoop_eq_fold] at hloop
        exact ⟨hloop.1, hloop.2.1⟩
/-! ### Consequences of the master decomposition -/

theorem SelRegion.not_caret_lt {r : SelRegion} (h : r.is_caret = false) :
    r.min < r.max := by
  have h1 := r.min_le_max
  have h2 : ¬ r.min = r.max := by
    intro hc
    have := (SelRegion.is_caret_iff r).2 hc
    rw [h] at this
    cases this
  omega

theorem window_index {rs : List SelRegion} {a b : Nat} (hb : b ≤ rs.length) :
    ∀ q ∈ (rs.drop a).take (b - a), ∃ k, a ≤ k ∧ k < b ∧ nth rs k = q := by
  intro q hq
  rcases mem_iff_nth.1 hq with ⟨idx, hidx, he⟩
  rw [List.length_take, List.length_drop] at hidx
  refine ⟨a + idx, by omega, by omega, ?_⟩
  rw [nth_take (by omega), nth_drop] at he
  exact he

theorem addParts_window_overlap (s : Selection) (r : SelRegion)
    (hs : SInv s.regions) :
    ∀ q ∈ overlapsOf s.regions r,
      ∃ k, (addParts s r).1 ≤ k ∧ k < (addParts s r).2.1 ∧
        nth s.regions k = q := by
  obtain ⟨hab, hb, h4, h5, h6, h7, h8, h9, h12, hU⟩ := addParts_master s r hs
  intro q hq
  rcases overlap_index hq with ⟨k, hk, hknth, hq1, hq2⟩
  have hka : (addParts s r).1 ≤ k := by
    rcases Nat.lt_or_ge k (addParts s r).1 with h' | h'
    · have hcc := h6 k h'
      rw [hknth] at hcc
      omega
    · exact h'
  refine ⟨k, hka, ?_, hknth⟩
  rcases Nat.lt_or_ge k (addParts s r).2.1 with h' | h'
  · exact h'
  · exfalso
    have hblen : (addParts s r).2.1 < s.regions.length := by omega
    have hns := h8 hblen
    have hnsp : ¬ ((nth s.regions (addParts s r).2.1).min <
        (addParts s r).2.2.max ∨
        (((addParts s r).2.2.is_caret = true ∨
          (nth s.regions (addParts s r).2.1).is_caret = true) ∧
          (nth s.regions (addParts s r).2.1).min =
            (addParts s r).2.2.max)) := by
      rw [← SelRegion.should_merge_iff]
      simp [hns]
    have hm1 : (addParts s r).2.2.max ≤
        (nth s.regions (addParts s r).2.1).min := by
      rcases Nat.lt_or_ge (nth s.regions (addParts s r).2.1).min
        (addParts s r).2.2.max with h'' | h''
      · exact absurd (Or.inl h'') hnsp
      · exact h''
    have hm2 := sinv_min_mono hs h' hk
    rw [hknth] at hm2
    have h9r := h9.2
    omega

theorem addParts_union (s : Selection) (r : SelRegion) (hs : SInv s.regions)
    (hO : overlapsOf s.regions r ≠ []) :
    (addParts s r).2.2.min = unionMin s.regions r ∧
      (addParts s r).2.2.max = unionMax s.regions r := by
  obtain ⟨hab, hb, h4, h5, h6, h7, h8, h9, h12, hU⟩ := addParts_master s r hs
  have hwin := addParts_window_overlap s r hs
  have hUf := hU hO
  constructor
  · refine Nat.le_antisymm ?_ hUf.1
    refine le_foldMin _ _ h9.1 ?_
    intro q hq
    rcases hwin q hq with ⟨k, hk1, hk2, hknth⟩
    have hmem := nth_mem_window hk1 hk2 hb
    rw [hknth] at hmem
    rw [h4]
    exact foldMin_le_mem _ _ hmem
  · refine Nat.le_antisymm hUf.2 ?_
    refine foldMax_le _ _ h9.2 ?_
    intro q hq
    rcases hwin q hq with ⟨k, hk1, hk2, hknth⟩
    have hmem := nth_mem_window hk1 hk2 hb
    rw [hknth] at hmem
    rw [h5]
    exact mem_le_foldMax _ _ hmem

theorem sinv_add_region (s : Selection) (r : SelRegion)
    (hs : SInv s.regions) : SInv (s.add_region r).regions := by
  obtain ⟨hab, hb, h4, h5, h6, h7, h8, h9, h12, hU⟩ := addParts_master s r hs
  rw [add_region_eq]
  have hlena : (s.regions.take (addParts s r).1).length = (addParts s r).1 := by
    rw [List.length_take]
    have : (addParts s r).1 ≤ s.regions.length := by omega
    omega
  have hnth_lt : ∀ j, j < (addParts s r).1 →
      nth (s.regions.take (addParts s r).1 ++
        (addParts s r).2.2 :: s.regions.drop (addParts s r).2.1) j =
      nth s.regions j := by
    intro j hj
    rw [nth_append_left (by omega), nth_take hj]
  have hnth_eq :
      nth (s.regions.take (addParts s r).1 ++
        (addParts s r).2.2 :: s.regions.drop (addParts s r).2.1)
        (addParts s r).1 = (addParts s r).2.2 := by
    rw [nth_append_right (by omega), hlena, Nat.sub_self]
    rfl
  have hnth_gt : ∀ j, (addParts s r).1 < j →
      nth (s.regions.take (addParts s r).1 ++
        (addParts s r).2.2 :: s.regions.drop (addParts s r).2.1) j =
      nth s.regions ((addParts s r).2.1 + (j - (addParts s r).1 - 1)) := by
    intro j hj
    rw [nth_append_right (by omega), hlena]
    have hje : j - (addParts s r).1 = (j - (addParts s r).1 - 1) + 1 := by
      omega
    rw [hje, nth_cons_succ, nth_drop]
    congr 1
  have hlent : (s.regions.take (addParts s r).1 ++
      (addParts s r).2.2 :: s.regions.drop (addParts s r).2.1).length =
      (addParts s r).1 + 1 +
        (s.regions.length - (addParts s r).2.1) := by
    rw [List.length_append, hlena]
    simp [List.length_drop]
    omega
  intro i hi
  rw [hlent] at hi
  rcases Nat.lt_trichotomy (i + 1) (addParts s r).1 with hc | hc | hc
  · -- both inside the untouched prefix
    rw [hnth_lt i (by omega), hnth_lt (i + 1) hc]
    exact sinv_adj hs (by omega)
  · -- the prefix meets the merged region
    rw [hnth_lt i (by omega), hc, hnth_eq]
    have h6a := h6 i (by omega)
    constructor
    · rw [h4]
      refine le_foldMin _ _ h6a ?_
      intro q hq
      rcases window_index hb q hq with ⟨k, hk1, hk2, hknth⟩
      have := (sinv_pair hs (show i < k by omega) (by omega)).1
      rw [hknth] at this
      exact this
    · rcases Nat.lt_or_ge (nth s.regions i).max r.min with h' | h'
      · have := h9.2
        have hrr := r.min_le_max
        omega
      · have heq : (nth s.regions i).max = r.min := by omega
        have hx := h7 i hc heq
        have := SelRegion.not_caret_lt hx.2
        have := h9.2
        omega
  · rcases Nat.lt_trichotomy i (addParts s r).1 with hd | hd | hd
    · omega
    · -- the merged region meets the untouched suffix
      have hblen : (addParts s r).2.1 < s.regions.length := by omega
      subst hd
      rw [hnth_eq, hnth_gt ((addParts s r).1 + 1) (by omega)]
      have hidx : (addParts s r).2.1 +
          ((addParts s r).1 + 1 - (addParts s r).1 - 1) =
          (addParts s r).2.1 := by omega
      rw [hidx]
      have hns := h8 hblen
      have hnsp : ¬ ((nth s.regions (addParts s r).2.1).min <
          (addParts s r).2.2.max ∨
          (((addParts s r).2.2.is_caret = true ∨
            (nth s.regions (addParts s r).2.1).is_caret = true) ∧
            (nth s.regions (addParts s r).2.1).min =
              (addParts s r).2.2.max)) := by
        rw [← SelRegion.should_merge_iff]
        simp [hns]
      have hm1 : (addParts s r).2.2.max ≤
          (nth s.regions (addParts s r).2.1).min := by
        rcases Nat.lt_or_ge (nth s.regions (addParts s r).2.1).min
          (addParts s r).2.2.max with h'' | h''
        · exact absurd (Or.inl h'') hnsp
        · exact h''
      refine ⟨hm1, ?_⟩
      have hminmax := (nth s.regions (addParts s r).2.1).min_le_max
      rcases Nat.lt_or_ge (nth s.regions (addParts s r).2.1).min
        (nth s.regions (addParts s r).2.1).max with h'' | h''
      · omega
      · have hceq : (nth s.regions (addParts s r).2.1).min =
            (nth s.regions (addParts s r).2.1).max := by omega
        have hcar := (SelRegion.is_caret_iff _).2 hceq
        rcases Nat.lt_or_ge (addParts s r).2.2.max
          (nth s.regions (addParts s r).2.1).min with h3 | h3
        · omega
        · exfalso
          exact hnsp (Or.inr ⟨Or.inr hcar, by omega⟩)
    · -- both inside the untouched suffix
      rw [hnth_gt i hd, hnth_gt (i + 1) (by omega)]
      have hidx : (addParts s r).2.1 + (i + 1 - (addParts s r).1 - 1) =
          ((addParts s r).2.1 + (i - (addParts s r).1 - 1)) + 1 := by omega
      rw [hidx]
      exact sinv_adj hs (by omega)

theorem sinv_foldl (ops : List SelRegion) :
    ∀ (s : Selection), SInv s.regions →
      SInv ((ops.foldl Selection.add_region s).regions) := by
  induction ops with
  | nil => intro s hs; exact hs
  | cons r ops ih =>
    intro s hs
    exact ih (s.add_region r) (sinv_add_region s r hs)

theorem sinv_pairwise {rs : List SelRegion} (h : SInv rs) :
    rs.Pairwise (fun x y => x.max ≤ y.max ∧ x.max ≤ y.min) := by
  rw [List.pairwise_iff_getElem]
  intro i j hi hj hij
  have hp := sinv_pair h hij hj
  rw [nth_eq_getElem hi, nth_eq_getElem hj] at hp
  exact ⟨le_of_lt hp.2, hp.1⟩

/-- C1: every Selection built by a sequence of add_region calls from an
empty or single-region Selection has its region list sorted ascending by
max and free of overlaps: for any two regions in order, the earlier max
is at most the later min (and so also at most the later max). -/
theorem claim1_add_region_invariant (init : Selection)
    (ops : List SelRegion) (h : init.regions.length ≤ 1) :
    ((ops.foldl Selection.add_region init).regions).Pairwise
      (fun x y => x.max ≤ y.max ∧ x.max ≤ y.min) := by
  have hinit : SInv init.regions := by
    intro i hi
    omega
  exact sinv_pairwise (sinv_foldl ops init hinit)

/-- Witness for claim1_add_region_invariant at a concrete input. -/
theorem claim1_add_region_invariant_witness :
    (Selection.new.regions.length ≤ 1) ∧
      (([SelRegion.new 4 9 none, SelRegion.new 0 2 none,
          SelRegion.new 8 12 none].foldl Selection.add_region
          Selection.new).regions).Pairwise
        (fun x y => x.max ≤ y.max ∧ x.max ≤ y.min) :=
  ⟨by decide,
    claim1_add_region_invariant Selection.new
      [SelRegion.new 4 9 none, SelRegion.new 0 2 none,
        SelRegion.new 8 12 none] (by decide)⟩


/-! ### Claim 2: regions_in_range -/

theorem regions_in_range_def (s : Selection) (lo hi : Nat) :
    s.regions_in_range lo hi =
      (s.regions.drop (s.search lo)).take
        ((if s.search hi < s.regions.length ∧
            (s.regions.getD (s.search hi) default).min ≤ hi
          then s.search hi + 1 else s.search hi) - s.search lo) := rfl

theorem rir_last_le (s : Selection) (hi : Nat) :
    (if s.search hi < s.regions.length ∧
        (s.regions.getD (s.search hi) default).min ≤ hi
      then s.search hi + 1 else s.search hi) ≤ s.regions.length := by
  split
  · next h => omega
  · exact search_le s hi

theorem rir_index_iff (s : Selection) (hs : SInv s.regions) (lo hi : Nat)
    (j : Nat) (hj : j < s.regions.length) :
    (s.search lo ≤ j ∧
        j < (if s.search hi < s.regions.length ∧
            (s.regions.getD (s.search hi) default).min ≤ hi
          then s.search hi + 1 else s.search hi)) ↔
      (lo ≤ (nth s.regions j).max ∧ (nth s.regions j).min ≤ hi ∧
        ((nth s.regions j).max < hi ∨
          ∀ k, k < j → (nth s.regions k).max < hi)) := by
  have hmono : ∀ i j, i < j → j < s.regions.length →
      (nth s.regions i).max < (nth s.regions j).max :=
    fun i j hij hj => (sinv_pair hs hij hj).2
  have hspl := search_spec s lo hmono
  have hsph := search_spec s hi hmono
  have hgetd : s.regions.getD (s.search hi) default =
      nth s.regions (s.search hi) := rfl
  rw [hgetd]
  constructor
  · rintro ⟨hF, hL⟩
    have hFlen : s.search lo < s.regions.length := by omega
    have hlomax : lo ≤ (nth s.regions j).max := by
      have h1 := hspl.2 hFlen
      have h2 := sinv_max_mono hs hF hj
      omega
    refine ⟨hlomax, ?_, ?_⟩
    · -- the region's min is below hi
      rcases Nat.lt_or_ge j (s.search hi) with h' | h'
      · have h1 := hsph.1 j h'
        have h2 := (nth s.regions j).min_le_max
        omega
      · -- then the +1 adjustment fired and j is exactly search hi
        split at hL
        · next hcond =>
          have : j = s.search hi := by omega
          subst this
          exact hcond.2
        · omega
    · rcases Nat.lt_or_ge j (s.search hi) with h' | h'
      · exact Or.inl (hsph.1 j h')
      · have : j = s.search hi := by
          split at hL
          · omega
          · omega
        subst this
        exact Or.inr (fun k hk => hsph.1 k hk)
  · rintro ⟨h1, h2, h3⟩
    have hF : s.search lo ≤ j := by
      rcases Nat.lt_or_ge j (s.search lo) with h' | h'
      · have := hspl.1 j h'
        omega
      · exact h'
    refine ⟨hF, ?_⟩
    rcases h3 with h3 | h3
    · -- max below hi: j is strictly before search hi
      have hjL : j < s.search hi := by
        rcases Nat.lt_or_ge j (s.search hi) with h' | h'
        · exact h'
        · have hL0len : s.search hi < s.regions.length := by omega
          have hhi := hsph.2 hL0len
          have := sinv_max_mono hs h' hj
          omega
      split
      · omega
      · omega
    · -- all earlier maxes below hi: j is at most search hi
      have hjle : j ≤ s.search hi := by
        rcases Nat.lt_or_ge (s.search hi) j with h' | h'
        · have hL0len : s.search hi < s.regions.length := by omega
          have hhi := hsph.2 hL0len
          have := h3 (s.search hi) h'
          omega
        · exact h'
      rcases Nat.lt_or_ge j (s.search hi) with h' | h'
      · split
        · omega
        · omega
      · have hje : j = s.search hi := by omega
        split
        · omega
        · next hcond =>
          exfalso
          rw [← hje] at hcond
          exact hcond ⟨hj, h2⟩

/-- C2 (amended): for a Selection satisfying the add_region invariant and
lo <= hi, regions_in_range(lo, hi) is a contiguous slice of the region
list, and a region belongs to it exactly when its extent intersects
[lo, hi] as closed intervals, EXCEPT that a region whose min equals hi is
included only when no earlier region's max already reaches hi (when a
preceding region has max exactly hi, a following region touching hi only
at its min is excluded). -/
theorem claim2_regions_in_range (s : Selection) (hs : SInv s.regions)
    (lo hi : Nat) (hlohi : lo ≤ hi) :
    (∃ a b, s.regions_in_range lo hi = (s.regions.drop a).take (b - a)) ∧
      (∀ j, j < s.regions.length →
        ((nth s.regions j ∈ s.regions_in_range lo hi) ↔
          (lo ≤ (nth s.regions j).max ∧ (nth s.regions j).min ≤ hi ∧
            ((nth s.regions j).max < hi ∨
              ∀ k, k < j → (nth s.regions k).max < hi)))) := by
  constructor
  · exact ⟨s.search lo,
      (if s.search hi < s.regions.length ∧
          (s.regions.getD (s.search hi) default).min ≤ hi
        then s.search hi + 1 else s.search hi),
      regions_in_range_def s lo hi⟩
  · intro j hj
    rw [← rir_index_iff s hs lo hi j hj, regions_in_range_def]
    constructor
    · intro hmem
      rcases window_index (rir_last_le s hi) _ hmem with ⟨k, hk1, hk2, hke⟩
      have : k = j := sinv_nth_inj hs (by have := rir_last_le s hi; omega) hj hke
      subst this
      exact ⟨hk1, hk2⟩
    · rintro ⟨hF, hL⟩
      exact nth_mem_window hF hL (rir_last_le s hi)

/-- C2 counterexample: on the reachable selection [[0,5],[5,9]] the query
regions_in_range(3, 5) omits the region [5,9], whose extent intersects
[3,5] exactly at the point 5 (min == hi), so the query result is not the
subsequence of regions whose extents intersect the closed range. -/
theorem claim2_counterexample :
    ¬ (((Selection.region 0 5).add_region
        (SelRegion.new 5 9 none)).regions_in_range 3 5 =
      ((Selection.region 0 5).add_region
        (SelRegion.new 5 9 none)).regions.filter
        (fun q => decide (3 ≤ q.max) && decide (q.min ≤ 5))) := by decide

/-- Witness for claim2_regions_in_range at a concrete input. -/
theorem claim2_regions_in_range_witness :
    SInv ((Selection.region 0 5).add_region
        (SelRegion.new 5 9 none)).regions ∧
      (3 : Nat) ≤ 5 ∧
      (∃ a b, ((Selection.region 0 5).add_region
          (SelRegion.new 5 9 none)).regions_in_range 3 5 =
        ((((Selection.region 0 5).add_region
          (SelRegion.new 5 9 none)).regions.drop a)).take (b - a)) :=
  ⟨by decide, by decide,
    (claim2_regions_in_range
      ((Selection.region 0 5).add_region (SelRegion.new 5 9 none))
      (by decide) 3 5 (by decide)).1⟩


/-! ### Absorption: adding a region already covered by an existing region -/

theorem mergeLoop_stop_head {region : SelRegion} {l : List SelRegion}
    (h : l = [] ∨ ∀ x ∈ l.head?, region.should_merge x = false) :
    Selection.mergeLoopAux region l = (region, 0) := by
  cases l with
  | nil => rfl
  | cons x rest =>
    rcases h with h | h
    · cases h
    · exact mergeLoop_cons_false (h x rfl)

theorem absorb_extents (s : Selection) (r : SelRegion) (hs : SInv s.regions)
    (p : Nat) (hp : p < s.regions.length)
    (h3 : (nth s.regions p).min ≤ r.min)
    (h4 : r.max ≤ (nth s.regions p).max)
    (h5 : p + 1 < s.regions.length →
      (nth s.regions p).should_merge (nth s.regions (p + 1)) = false)
    (h6 : 0 < p →
      (nth s.regions (p - 1)).max < r.min ∨
      ((nth s.regions (p - 1)).max = r.min ∧
        (nth s.regions (p - 1)).is_caret = false ∧ r.is_caret = false)) :
    extentsOf (s.add_region r) = extentsOf s := by
  have hmono : ∀ i j, i < j → j < s.regions.length →
      (nth s.regions i).max < (nth s.regions j).max :=
    fun i j hij hj => (sinv_pair hs hij hj).2
  have hsp := search_spec s r.min hmono
  have hrm := r.min_le_max
  have hpm := (nth s.regions p).min_le_max
  have hixle : s.search r.min ≤ p := by
    rcases Nat.lt_or_ge p (s.search r.min) with h' | h'
    · have := hsp.1 p h'
      omega
    · exact h'
  have hixlen : s.search r.min < s.regions.length := by omega
  have hixne : ¬ s.search r.min = s.regions.length := by omega
  have hgd : ∀ k, s.regions.getD k default = nth s.regions k := fun k => rfl
  -- the suffix after p never merges with a region of p's extent
  have hstop : ∀ (M : SelRegion), M.min = (nth s.regions p).min →
      M.max = (nth s.regions p).max →
      Selection.mergeLoopAux M (s.regions.drop (p + 1)) = (M, 0) := by
    intro M hMn hMx
    refine mergeLoop_stop_head ?_
    cases hd : s.regions.drop (p + 1) with
    | nil => exact Or.inl rfl
    | cons x rest =>
      refine Or.inr ?_
      intro y hy
      have hplen : p + 1 < s.regions.length := by
        have hlen := congrArg List.length hd
        rw [List.length_drop, List.length_cons] at hlen
        omega
      have hxe : x = nth s.regions (p + 1) := by
        have h0 := nth_drop s.regions (p + 1) 0
        rw [hd, nth_cons_zero, Nat.add_zero] at h0
        exact h0
      rw [List.head?_cons] at hy
      injection hy with hy
      rw [← hy, hxe]
      rw [SelRegion.should_merge_congr M (nth s.regions p)
        (nth s.regions (p + 1)) (nth s.regions (p + 1)) hMn hMx rfl rfl]
      exact h5 hplen
  suffices h : ∃ M, addParts s r = (p, p + 1, M) ∧
      M.min = (nth s.regions p).min ∧ M.max = (nth s.regions p).max by
    rcases h with ⟨M, hparts, hMn, hMx⟩
    have hsplit : s.regions = s.regions.take p ++
        nth s.regions p :: s.regions.drop (p + 1) := by
      conv_lhs => rw [← List.take_append_drop p s.regions]
      rw [drop_cons_nth hp]
    have h1 : extentsOf (s.add_region r) =
        (s.regions.take p).map (fun q => (q.min, q.max)) ++
          ((nth s.regions p).min, (nth s.regions p).max) ::
            (s.regions.drop (p + 1)).map (fun q => (q.min, q.max)) := by
      unfold extentsOf
      rw [add_region_eq s r, hparts]
      dsimp only
      rw [List.map_append, List.map_cons, hMn, hMx]
    have h2 : extentsOf s =
        (s.regions.take p).map (fun q => (q.min, q.max)) ++
          ((nth s.regions p).min, (nth s.regions p).max) ::
            (s.regions.drop (p + 1)).map (fun q => (q.min, q.max)) := by
      unfold extentsOf
      conv_lhs => rw [hsplit]
      rw [List.map_append, List.map_cons]
    rw [h1, h2]
  by_cases hcase : s.search r.min = p
  · -- the search lands exactly on p: p is merged in the first phase
    have hsm : (nth s.regions p).should_merge r = true := by
      refine (SelRegion.should_merge_iff _ _).2 ?_
      rcases Nat.lt_or_ge r.min (nth s.regions p).max with h' | h'
      · exact Or.inl h'
      · have hcaret : r.is_caret = true := by
          refine (SelRegion.is_caret_iff r).2 ?_
          omega
        exact Or.inr ⟨Or.inr hcaret, by omega⟩
    rcases addT_cases s r with ⟨he, hm0, hsm'⟩ | ⟨he, hm0, hsm'⟩ | ⟨he, hm0⟩
    · rw [hgd, hcase] at he hm0 hsm'
      have hmin1 : ((nth s.regions p).merge_with r).min =
          (nth s.regions p).min := by
        rw [SelRegion.merge_min]
        exact Nat.min_eq_left h3
      have hmax1 : ((nth s.regions p).merge_with r).max =
          (nth s.regions p).max := by
        rw [SelRegion.merge_max]
        exact Nat.max_eq_left h4
      refine ⟨(nth s.regions p).merge_with r, ?_, hmin1, hmax1⟩
      rw [addParts_eq_neg s r hixne, he]
      dsimp only
      rw [hstop _ hmin1 hmax1]
      rfl
    · rw [hgd, hcase] at hsm'
      rw [hsm] at hsm'
      cases hsm'
    · rw [hgd, hcase] at hm0
      omega
  · -- the search lands on p - 1, whose max equals r.min
    have hp0 : 0 < p := by
      rcases Nat.eq_or_lt_of_le (Nat.zero_le p) with h' | h'
      · exfalso
        apply hcase
        omega
      · exact h'
    have hixp1 : s.search r.min = p - 1 := by
      have hle1 := hsp.2 hixlen
      rcases h6 hp0 with h' | ⟨heq6, hnc0, hncr⟩
      · -- all maxes before p are below r.min, so search lands on p
        exfalso
        apply hcase
        rcases Nat.lt_or_ge (s.search r.min) p with h'' | h''
        · have := sinv_max_mono hs (show s.search r.min ≤ p - 1 by omega)
            (show p - 1 < s.regions.length by omega)
          omega
        · omega
      · -- the region before p has max exactly r.min
        rcases Nat.lt_or_ge (s.search r.min) p with h'' | h''
        · rcases Nat.lt_or_ge (s.search r.min) (p - 1) with h3' | h3'
          · exfalso
            have := sinv_max_mono hs (show s.search r.min ≤ p - 1 - 1 by omega)
              (show p - 1 - 1 < s.regions.length by omega)
            have hlt2 := hmono (p - 1 - 1) (p - 1) (by omega) (by omega)
            omega
          · omega
        · exfalso
          have := hsp.1 (p - 1) (by omega)
          omega
    rcases h6 hp0 with h' | ⟨heq6, hnc0, hncr⟩
    · exfalso
      have hle1 := hsp.2 hixlen
      rw [hixp1] at hle1
      omega
    · have hnp : (nth s.regions p).min = r.min := by
        have hadj := (sinv_adj hs (show (p - 1) + 1 < s.regions.length
          by omega)).1
        have hpe : p - 1 + 1 = p := by omega
        rw [hpe] at hadj
        omega
      have hrlt : r.min < r.max := SelRegion.not_caret_lt hncr
      have hsmf : (nth s.regions (p - 1)).should_merge r = false := by
        refine bool_eq_false ?_
        intro hc
        rcases (SelRegion.should_merge_iff _ _).1 hc with h'' | ⟨hcar, hmeq⟩
        · omega
        · rcases hcar with hcar | hcar
          · rw [hnc0] at hcar
            cases hcar
          · rw [hncr] at hcar
            cases hcar
      have hsmt : r.should_merge (nth s.regions p) = true := by
        refine (SelRegion.should_merge_iff _ _).2 ?_
        exact Or.inl (by omega)
      rcases addT_cases s r with ⟨he, hm0, hsm'⟩ | ⟨he, hm0, hsm'⟩ | ⟨he, hm0⟩
      · rw [hgd, hixp1] at hsm'
        rw [hsmf] at hsm'
        cases hsm'
      · rw [hgd] at hm0 hsm'
        rw [hixp1] at he hm0 hsm'
        have hmin1 : (r.merge_with (nth s.regions p)).min =
            (nth s.regions p).min := by
          rw [SelRegion.merge_min]
          have : Nat.min r.min (nth s.regions p).min = r.min :=
            Nat.min_eq_left (by omega)
          omega
        have hmax1 : (r.merge_with (nth s.regions p)).max =
            (nth s.regions p).max := by
          rw [SelRegion.merge_max]
          exact Nat.max_eq_right h4
        refine ⟨r.merge_with (nth s.regions p), ?_, hmin1, hmax1⟩
        rw [addParts_eq_neg s r hixne, he]
        dsimp only
        have hpe : p - 1 + 1 = p := by omega
        rw [hpe]
        have hdp : s.regions.drop p = nth s.regions p ::
            s.regions.drop (p + 1) := drop_cons_nth hp
        rw [hdp, mergeLoop_cons_true hsmt, hstop _ hmin1 hmax1]
      · rw [hgd, hixp1] at hm0
        have : (nth s.regions (p - 1)).min ≤ (nth s.regions (p - 1)).max :=
          (nth s.regions (p - 1)).min_le_max
        omega

/-! ### Index access into the result of add_region -/

theorem add_region_length (s : Selection) (r : SelRegion) :
    (s.add_region r).regions.length =
      (addParts s r).1 + 1 +
        (s.regions.length - (addParts s r).2.1) := by
  have hb := addParts_bounds s r
  rw [add_region_eq, List.length_append, List.length_take, List.length_cons,
    List.length_drop]
  omega

theorem add_region_nth_lt (s : Selection) (r : SelRegion) {j : Nat}
    (hj : j < (addParts s r).1) :
    nth (s.add_region r).regions j = nth s.regions j := by
  have hb := addParts_bounds s r
  rw [add_region_eq, nth_append_left
    (by rw [List.length_take]; omega), nth_take hj]

theorem add_region_nth_mid (s : Selection) (r : SelRegion) :
    nth (s.add_region r).regions (addParts s r).1 = (addParts s r).2.2 := by
  have hb := addParts_bounds s r
  have hlena : (s.regions.take (addParts s r).1).length = (addParts s r).1 := by
    rw [List.length_take]
    omega
  rw [add_region_eq, nth_append_right (by omega), hlena, Nat.sub_self]
  rfl

theorem add_region_nth_gt (s : Selection) (r : SelRegion) {j : Nat}
    (hj : (addParts s r).1 < j) :
    nth (s.add_region r).regions j =
      nth s.regions ((addParts s r).2.1 + (j - (addParts s r).1 - 1)) := by
  have hb := addParts_bounds s r
  have hlena : (s.regions.take (addParts s r).1).length = (addParts s r).1 := by
    rw [List.length_take]
    omega
  rw [add_region_eq, nth_append_right (by omega), hlena]
  have hje : j - (addParts s r).1 = (j - (addParts s r).1 - 1) + 1 := by
    omega
  rw [hje, nth_cons_succ, nth_drop]
  congr 1

/-- C10: add_region is idempotent up to extents: adding the same region
twice in a row yields the same list of (min, max) extents as adding it
once. -/
theorem claim10_idempotent (s : Selection) (r : SelRegion)
    (hs : SInv s.regions) :
    extentsOf ((s.add_region r).add_region r) =
      extentsOf (s.add_region r) := by
  obtain ⟨hab, hb, h4, h5, h6, h7, h8, h9, h12, hU⟩ := addParts_master s r hs
  have hs1 : SInv (s.add_region r).regions := sinv_add_region s r hs
  have hlen1 := add_region_length s r
  have hp : (addParts s r).1 < (s.add_region r).regions.length := by omega
  refine absorb_extents (s.add_region r) r hs1 (addParts s r).1 hp ?_ ?_ ?_ ?_
  · rw [add_region_nth_mid]
    exact h9.1
  · rw [add_region_nth_mid]
    exact h9.2
  · intro hplen
    have hblen : (addParts s r).2.1 < s.regions.length := by omega
    rw [add_region_nth_mid, add_region_nth_gt s r
      (show (addParts s r).1 < (addParts s r).1 + 1 by omega)]
    have hidx : (addParts s r).2.1 +
        ((addParts s r).1 + 1 - (addParts s r).1 - 1) =
        (addParts s r).2.1 := by omega
    rw [hidx]
    exact h8 hblen
  · intro hp0
    rw [add_region_nth_lt s r (show (addParts s r).1 - 1 < (addParts s r).1
      by omega)]
    have h6a := h6 ((addParts s r).1 - 1) (by omega)
    rcases Nat.lt_or_ge (nth s.regions ((addParts s r).1 - 1)).max r.min
      with h' | h'
    · exact Or.inl h'
    · have heq : (nth s.regions ((addParts s r).1 - 1)).max = r.min := by
        omega
      have hx := h7 ((addParts s r).1 - 1) (by omega) heq
      exact Or.inr ⟨heq, hx.1, hx.2⟩

/-- Witness for claim10_idempotent at a concrete input. -/
theorem claim10_idempotent_witness :
    SInv (Selection.region 0 5).regions ∧
      extentsOf (((Selection.region 0 5).add_region
          (SelRegion.new 3 8 none)).add_region (SelRegion.new 3 8 none)) =
        extentsOf ((Selection.region 0 5).add_region
          (SelRegion.new 3 8 none)) :=
  ⟨by decide,
    claim10_idempotent (Selection.region 0 5) (SelRegion.new 3 8 none)
      (by decide)⟩

/-- C5: caret coalescing: (i) adding a caret at an offset where some
existing region is a caret at that offset leaves exactly one region whose
extent contains the offset; (ii) adding a caret exactly at the max of an
existing non-caret region merges it into that region, leaving every extent
unchanged; (iii) concretely, caret(5) followed by add_region(SelRegion(5,5))
is still the single region [5,5]. -/
theorem claim5_caret_coalesce :
    (∀ (s : Selection) (o j : Nat), SInv s.regions → j < s.regions.length →
      (nth s.regions j).is_caret = true → (nth s.regions j).min = o →
      ((s.add_region (SelRegion.new o o none)).regions.countP
        (fun q => decide (q.min ≤ o) && decide (o ≤ q.max))) = 1) ∧
    (∀ (s : Selection) (o j : Nat), SInv s.regions → j < s.regions.length →
      (nth s.regions j).is_caret = false → (nth s.regions j).max = o →
      extentsOf (s.add_region (SelRegion.new o o none)) = extentsOf s) ∧
    ((Selection.caret 5).add_region (SelRegion.new 5 5 none)).regions =
      [SelRegion.new 5 5 none] := by
  refine ⟨?_, ?_, ?_⟩
  · intro s o j hs hj hjc hjmin
    set r : SelRegion := SelRegion.new o o none with hr
    have hrmin : r.min = o := by
      rw [hr]
      unfold SelRegion.new SelRegion.min
      simp
    have hrmax : r.max = o := by
      rw [hr]
      unfold SelRegion.new SelRegion.max
      simp
    have hrcar : r.is_caret = true := by
      rw [hr]
      unfold SelRegion.new SelRegion.is_caret
      simp
    have hjmax : (nth s.regions j).max = o := by
      have := (SelRegion.is_caret_iff _).1 hjc
      omega
    obtain ⟨hab, hb, h4, h5, h6, h7, h8, h9, h12, hU⟩ := addParts_master s r hs
    have hmono : ∀ i j, i < j → j < s.regions.length →
        (nth s.regions i).max < (nth s.regions j).max :=
      fun i j hij hj => (sinv_pair hs hij hj).2
    have hsp := search_spec s r.min hmono
    have hsle : s.search r.min ≤ j := by
      by_contra h'
      have := hsp.1 j (by omega)
      omega
    have hsge : j ≤ s.search r.min := by
      by_contra h'
      push_neg at h'
      have h1 := hsp.2 (by omega)
      have h2 := hmono (s.search r.min) j h' hj
      omega
    have haj : (addParts s r).1 = j := by
      rcases Nat.lt_or_ge j (addParts s r).1 with h' | h'
      · exfalso
        rcases Nat.lt_or_ge (j + 1) (addParts s r).1 with h2 | h2
        · have hlen : (addParts s r).1 - 1 < s.regions.length := by omega
          have hlt := hmono j ((addParts s r).1 - 1) (by omega) hlen
          have hle := h6 ((addParts s r).1 - 1) (by omega)
          omega
        · have he : j + 1 = (addParts s r).1 := by omega
          have := (h7 j he (by omega)).2
          rw [hrcar] at this
          simp at this
      · omega
    rw [add_region_eq, List.countP_append, List.countP_cons]
    have htake0 : (s.regions.take (addParts s r).1).countP
        (fun q => decide (q.min ≤ o) && decide (o ≤ q.max)) = 0 := by
      rw [List.countP_eq_zero]
      intro x hx
      rcases mem_iff_nth.1 hx with ⟨k, hk, he⟩
      rw [List.length_take] at hk
      have hk1 : k < (addParts s r).1 := by
        have := Nat.min_le_left ((addParts s r).1) s.regions.length
        calc k < Nat.min (addParts s r).1 s.regions.length := hk
          _ ≤ (addParts s r).1 := Nat.min_le_left _ _
      rw [nth_take hk1] at he
      simp only [Bool.and_eq_true, decide_eq_true_eq]
      rintro ⟨hx1, hx2⟩
      rw [← he] at hx1 hx2
      have hle := h6 k hk1
      rcases Nat.lt_or_ge (k + 1) (addParts s r).1 with h2 | h2
      · have hlen : (addParts s r).1 - 1 < s.regions.length := by omega
        have hlt := hmono k ((addParts s r).1 - 1) (by omega) hlen
        have hle2 := h6 ((addParts s r).1 - 1) (by omega)
        omega
      · have he2 : k + 1 = (addParts s r).1 := by omega
        have := (h7 k he2 (by omega)).2
        rw [hrcar] at this
        simp at this
    have hdrop0 : (s.regions.drop (addParts s r).2.1).countP
        (fun q => decide (q.min ≤ o) && decide (o ≤ q.max)) = 0 := by
      rw [List.countP_eq_zero]
      intro x hx
      rcases mem_iff_nth.1 hx with ⟨k, hk, he⟩
      rw [List.length_drop] at hk
      rw [nth_drop] at he
      have hblen : (addParts s r).2.1 < s.regions.length := by omega
      have hbk : (addParts s r).2.1 + k < s.regions.length := by omega
      simp only [Bool.and_eq_true, decide_eq_true_eq]
      rintro ⟨hx1, hx2⟩
      rw [← he] at hx1 hx2
      have hsm : ¬ ((addParts s r).2.2.should_merge
          (nth s.regions (addParts s r).2.1) = true) := by
        rw [h8 hblen]
        simp
      rw [SelRegion.should_merge_iff] at hsm
      push_neg at hsm
      obtain ⟨hnb, hcc⟩ := hsm
      have hminmono := sinv_min_mono hs
        (show (addParts s r).2.1 ≤ (addParts s r).2.1 + k by omega) hbk
      have hMmax : o ≤ (addParts s r).2.2.max := by
        have := h9.2
        omega
      have hnbo : (nth s.regions (addParts s r).2.1).min = o := by omega
      have hMo : (addParts s r).2.2.max = o := by omega
      have hMminle : (addParts s r).2.2.min ≤ o := by
        have := h9.1
        omega
      have hMminge : o ≤ (addParts s r).2.2.min := by
        rw [h4]
        refine le_foldMin _ _ (by omega) ?_
        intro q hq
        rcases mem_iff_nth.1 hq with ⟨t, ht, he2⟩
        have ht1 : t < (addParts s r).2.1 - (addParts s r).1 :=
          Nat.lt_of_lt_of_le ht (List.length_take_le _ _)
        rw [nth_take ht1, nth_drop] at he2
        rcases Nat.eq_zero_or_pos t with h0 | h0
        · subst h0
          rw [Nat.add_zero, haj] at he2
          rw [← he2]
          omega
        · have hlt : j < (addParts s r).1 + t := by omega
          have hlen2 : (addParts s r).1 + t < s.regions.length := by omega
          have := (sinv_pair hs hlt hlen2).1
          rw [← he2]
          omega
      have hMcar : (addParts s r).2.2.is_caret = true := by
        rw [SelRegion.is_caret_iff]
        omega
      have := hcc (Or.inl hMcar)
      omega
    rw [htake0, hdrop0]
    have hc1 : (addParts s r).2.2.min ≤ o := by
      have := h9.1
      omega
    have hc2 : o ≤ (addParts s r).2.2.max := by
      have := h9.2
      omega
    simp [hc1, hc2]
  · intro s o j hs hj hjc hjmax
    have hrmin : (SelRegion.new o o none).min = o := by
      unfold SelRegion.new SelRegion.min
      simp
    have hrmax : (SelRegion.new o o none).max = o := by
      unfold SelRegion.new SelRegion.max
      simp
    refine absorb_extents s (SelRegion.new o o none) hs j hj ?_ ?_ ?_ ?_
    · have h1 := (nth s.regions j).min_le_max
      omega
    · omega
    · intro h'
      apply bool_eq_false
      intro hc
      rw [SelRegion.should_merge_iff] at hc
      have hadj := sinv_adj hs h'
      rcases hc with hlt | ⟨hcar, heq⟩
      · omega
      · rcases hcar with hcl | hcr
        · rw [hjc] at hcl
          simp at hcl
        · have := (SelRegion.is_caret_iff _).1 hcr
          omega
    · intro h0
      have := (sinv_pair hs (show j - 1 < j by omega) hj).2
      left
      omega
  · rfl

/-- Witness for claim5_caret_coalesce at concrete inputs. -/
theorem claim5_caret_coalesce_witness :
    (SInv (Selection.caret 5).regions ∧
      ((Selection.caret 5).add_region (SelRegion.new 5 5 none)).regions.countP
        (fun q => decide (q.min ≤ 5) && decide (5 ≤ q.max)) = 1) ∧
    (SInv (Selection.region 0 5).regions ∧
      extentsOf ((Selection.region 0 5).add_region (SelRegion.new 5 5 none)) =
        extentsOf (Selection.region 0 5)) :=
  ⟨⟨by decide, claim5_caret_coalesce.1 (Selection.caret 5) 5 0 (by decide)
      (by decide) (by decide) (by decide)⟩,
    ⟨by decide, claim5_caret_coalesce.2.1 (Selection.region 0 5) 5 0
      (by decide) (by decide) (by decide) (by decide)⟩⟩

/-- C4: true-overlap merge: under the invariant, when the new region truly
overlaps at least one existing region, the result replaces a contiguous
window containing every truly-overlapping region by a single region whose
extent is the union [least min, greatest max] over the new region and the
overlapped ones, and that merged region is the unique region of the result
truly overlapping the new region; in particular [[0,5]] plus
add_region(SelRegion(3,8)) gives exactly the one region [0,8]. -/
theorem claim4_overlap_union :
    (∀ (s : Selection) (r : SelRegion), SInv s.regions →
      overlapsOf s.regions r ≠ [] →
      ∃ a b M,
        (s.add_region r).regions =
          s.regions.take a ++ M :: s.regions.drop b ∧
        M.min = unionMin s.regions r ∧
        M.max = unionMax s.regions r ∧
        (∀ q ∈ overlapsOf s.regions r,
          ∃ k, a ≤ k ∧ k < b ∧ nth s.regions k = q) ∧
        (∀ M', M' ∈ (s.add_region r).regions →
          r.min < M'.max → M'.min < r.max → M' = M)) ∧
    ((Selection.region 0 5).add_region (SelRegion.new 3 8 none)).regions =
      [SelRegion.new 0 8 none] := by
  constructor
  · intro s r hs hO
    obtain ⟨hab, hb, h4, h5, h6, h7, h8, h9, h12, hU⟩ := addParts_master s r hs
    refine ⟨(addParts s r).1, (addParts s r).2.1, (addParts s r).2.2,
      add_region_eq s r, (addParts_union s r hs hO).1,
      (addParts_union s r hs hO).2, addParts_window_overlap s r hs, ?_⟩
    intro M' hM' hov1 hov2
    rw [add_region_eq] at hM'
    rcases List.mem_append.1 hM' with hL | hR
    · exfalso
      rcases mem_iff_nth.1 hL with ⟨k, hk, he⟩
      rw [List.length_take] at hk
      have hk1 : k < (addParts s r).1 :=
        Nat.lt_of_lt_of_le hk (Nat.min_le_left _ _)
      rw [nth_take hk1] at he
      have hle := h6 k hk1
      rw [he] at hle
      omega
    · rcases List.mem_cons.1 hR with hM | hD
      · exact hM
      · exfalso
        rcases mem_iff_nth.1 hD with ⟨k, hk, he⟩
        rw [List.length_drop] at hk
        rw [nth_drop] at he
        have hblen : (addParts s r).2.1 < s.regions.length := by omega
        have hbk : (addParts s r).2.1 + k < s.regions.length := by omega
        have hns := h8 hblen
        have hm1 : (addParts s r).2.2.max ≤
            (nth s.regions (addParts s r).2.1).min := by
          by_contra h''
          push_neg at h''
          have hsm : (addParts s r).2.2.should_merge
              (nth s.regions (addParts s r).2.1) = true :=
            (SelRegion.should_merge_iff _ _).2 (Or.inl h'')
          rw [hns] at hsm
          simp at hsm
        have hm2 := sinv_min_mono hs
          (show (addParts s r).2.1 ≤ (addParts s r).2.1 + k by omega) hbk
        rw [he] at hm2
        have h9r := h9.2
        omega
  · rfl

/-- Witness for claim4_overlap_union at a concrete input. -/
theorem claim4_overlap_union_witness :
    SInv (Selection.region 0 5).regions ∧
      overlapsOf (Selection.region 0 5).regions (SelRegion.new 3 8 none) ≠
        [] ∧
      ∃ a b M,
        ((Selection.region 0 5).add_region
            (SelRegion.new 3 8 none)).regions =
          (Selection.region 0 5).regions.take a ++
            M :: (Selection.region 0 5).regions.drop b ∧
        M.min = unionMin (Selection.region 0 5).regions
          (SelRegion.new 3 8 none) ∧
        M.max = unionMax (Selection.region 0 5).regions
          (SelRegion.new 3 8 none) ∧
        (∀ q ∈ overlapsOf (Selection.region 0 5).regions
            (SelRegion.new 3 8 none),
          ∃ k, a ≤ k ∧ k < b ∧ nth (Selection.region 0 5).regions k = q) ∧
        (∀ M', M' ∈ ((Selection.region 0 5).add_region
            (SelRegion.new 3 8 none)).regions →
          (SelRegion.new 3 8 none).min < M'.max →
          M'.min < (SelRegion.new 3 8 none).max → M' = M) :=
  ⟨by decide, by decide,
    claim4_overlap_union.1 (Selection.region 0 5) (SelRegion.new 3 8 none)
      (by decide) (by decide)⟩
end Lapce
